import Mathlib

/-!
Verification development for the overlay-network membership manager
(`src/network/node_network.rs`).  The Rust code is shallowly embedded:
external collaborators (DHT, transport, key-value store, the awaiters
pool) appear as explicit parameters, stateful loops become fuel-indexed
functions emitting event traces, and the `lockfree::map` insertion
protocol is modelled as an explicit compare-and-swap retry loop.

The file is organised as definitions first, theorems afterwards.
-/

namespace NodeNet

/-! ## Registry: model of `lockfree::map::insert_with` and `try_add_new_overlay`

`try_add_new_overlay` (node_network.rs lines 114-148) calls
`self.overlays.insert_with` with a closure over
`(_, prev_gen_val, updated_pair)`.  We model one key slot of the map.
The closure is invoked with the previously generated value and the
currently stored value; it answers with a `Preview`.  The map then
attempts a CAS; concurrent interference makes the CAS fail and the
closure run again with a fresh observation.  The `interference` list
records, for each failed CAS attempt, the slot value observed at the
retry; when the list is exhausted the CAS succeeds. -/

inductive Preview (V : Type) where
  | discard : Preview V
  | keep : Preview V
  | new : V → Preview V
deriving DecidableEq, Repr

inductive Insertion (V : Type) where
  | created : Insertion V
  | updated : V → Insertion V
  | failed : Insertion V
deriving DecidableEq, Repr

/-- The retry loop of `lockfree::map::Map::insert_with`, for one key.
`prevGen` is the value generated by an earlier run of the closure (the
closure's second argument), `cur` the currently observed slot content
(the closure's third argument, `updated_pair`). A successful CAS over an
occupied slot reports `updated`; over an empty slot, `created`;
`discard` aborts with `failed`. -/
def insertWith {V : Type} (closure : Option V → Option V → Preview V) :
    List (Option V) → Option V → Option V → Insertion V
  | [], prevGen, cur =>
    match closure prevGen cur with
    | .discard => .failed
    | .keep =>
      match prevGen with
      | none => .failed
      | some _ =>
        match cur with
        | none => .created
        | some old => .updated old
    | .new _ =>
      match cur with
      | none => .created
      | some old => .updated old
  | newCur :: rest, prevGen, cur =>
    match closure prevGen cur with
    | .discard => .failed
    | .keep => insertWith closure rest prevGen newCur
    | .new v => insertWith closure rest (some v) newCur

/-- The closure passed to `insert_with` by `try_add_new_overlay`
(lines 121-132): discard when the map already holds a value, keep a
previously generated value, otherwise propose the candidate overlay. -/
def overlayClosure {V : Type} (overlay : V) (prevGen cur : Option V) : Preview V :=
  if cur.isSome then
    Preview.discard
  else if prevGen.isSome then
    Preview.keep
  else
    Preview.new overlay

/-- Outcome of `try_add_new_overlay`: a returned handle, the
`unreachable!` panic of the `Insertion::Updated` arm, or a panic of the
`.get(overlay_id).unwrap()` in the `Insertion::Failed` arm. -/
inductive TryAddResult (V : Type) where
  | ok : V → TryAddResult V
  | panicUnreachable : TryAddResult V
  | panicUnwrap : TryAddResult V
deriving DecidableEq, Repr

/-- The `match insertion` dispatch of `try_add_new_overlay`
(lines 134-147). `getRes` is the slot content observed by the
`self.overlays.get(overlay_id)` performed in the `Failed` arm. -/
def tryAddDispatch {V : Type} (candidate : V) (getRes : Option V) :
    Insertion V → TryAddResult V
  | .created => .ok candidate
  | .updated _ => .panicUnreachable
  | .failed =>
    match getRes with
    | some resident => .ok resident
    | none => .panicUnwrap

/-- `try_add_new_overlay` (lines 114-148): run the insertion protocol
against the observed slot history `cur :: interference`, then dispatch
on the insertion outcome. -/
def try_add_new_overlay {V : Type} (candidate : V)
    (interference : List (Option V)) (cur : Option V) (getRes : Option V) :
    TryAddResult V :=
  tryAddDispatch candidate getRes
    (insertWith (overlayClosure candidate) interference none cur)

/-- A slot history is persistent when, once a value is resident, every
later observation is that same value.  This is the no-removal /
no-replacement discipline of the overlay cache. -/
def persists {V : Type} [DecidableEq V] : List (Option V) → Prop
  | [] => True
  | none :: rest => persists rest
  | some v :: rest => (∀ x ∈ rest, x = some v) ∧ persists rest

instance instDecidablePersists {V : Type} [DecidableEq V] :
    ∀ l : List (Option V), Decidable (persists l)
  | [] => by unfold persists; exact inferInstance
  | none :: rest => by
      unfold persists; exact instDecidablePersists rest
  | some _ :: rest => by
      unfold persists
      have := instDecidablePersists (V := V) rest
      exact inferInstance

/-! ## Whole-map view of the overlay cache

The only operations the source ever performs on the `overlays` map are
the CAS insertion inside `try_add_new_overlay` and read-only `get`
calls (lines 119, 145, 450); there is no `remove` and no plain
`insert`.  A `casInsert` writes a value only into an empty slot —
exactly what the CAS of `insert_with` can do under `overlayClosure`. -/

inductive CacheOp (K V : Type) where
  | casInsert : K → V → CacheOp K V
  | read : K → CacheOp K V
deriving DecidableEq, Repr

def applyOp {K V : Type} [DecidableEq K] (cache : K → Option V) :
    CacheOp K V → K → Option V
  | .casInsert id v, k =>
    if k = id then
      match cache id with
      | none => some v
      | some r => some r
    else cache k
  | .read _, k => cache k

def applyOps {K V : Type} [DecidableEq K] (cache : K → Option V) :
    List (CacheOp K V) → K → Option V
  | [] => cache
  | op :: rest => applyOps (fun k => applyOp cache op k) rest

/-- Successive values of one slot along a run of cache operations. -/
def slotHistory {K V : Type} [DecidableEq K] (cache : K → Option V) :
    List (CacheOp K V) → K → List (Option V)
  | [], id => [cache id]
  | op :: rest, id => cache id :: slotHistory (fun k => applyOp cache op k) rest id

/-! ## The resolve loop `get_overlay`

`get_overlay` (lines 445-461) loops: read the cache slot for the
identifier; on a hit return the resident handle; on a miss submit
`get_overlay_worker` to the awaiters pool via `do_or_wait` and `.await?`
its outcome; an `Ok(Some(handle))` is returned, an `Err` propagates to
the caller, and an `Ok(None)` loops back to the cache lookup.
`cacheAt t` is the slot content observed at iteration `t` and
`doOrWaitAt t` the outcome of the `do_or_wait` call of iteration `t`.
The function returns the loop's outcome (`none` when the given fuel is
exhausted — the real loop is unbounded) together with the number of
`do_or_wait` submissions made. -/
def get_overlay {V E : Type} (cacheAt : Nat → Option V)
    (doOrWaitAt : Nat → Except E (Option V)) :
    Nat → Nat → Option (Except E V) × Nat
  | 0, _ => (none, 0)
  | fuel + 1, t =>
    match cacheAt t with
    | some v => (some (Except.ok v), 0)
    | none =>
      match doOrWaitAt t with
      | .error e => (some (Except.error e), 1)
      | .ok (some v) => (some (Except.ok v), 1)
      | .ok none =>
        let r := get_overlay cacheAt doOrWaitAt fuel (t + 1)
        (r.1, r.2 + 1)

/-- A cache-observation sequence is monotone when a resident value
stays resident with the same identity forever after. -/
def cacheMono {V : Type} (cacheAt : Nat → Option V) : Prop :=
  ∀ s v, cacheAt s = some v → cacheAt (s + 1) = some v

/-! ## The peer-refresh loop `start_update_peers`

`start_update_peers` (lines 356-372) spawns a task holding a single
cursor `iter` initialised to `None` before the loop and threaded
through every `update_peers` call; each iteration runs `update_peers`
(warning on failure), returns when the neighbour count has reached
`neighbours::MAX_NEIGHBOURS`, and otherwise sleeps 5 s.  A round is a
function from the cursor to the discovery outcome (the list of peers
fed into the neighbour set) and the advanced cursor. -/

inductive REvent (C : Type) where
  | round : Option C → REvent C
  | warnFail : REvent C
  | sleep : Nat → REvent C
deriving DecidableEq, Repr

/-- The peer-refresh loop.  `quota` is the neighbour-set quota
(`MAX_NEIGHBOURS`), `cur` the discovery cursor, `count` the current
neighbour count.  Returns the event trace of the executed iterations
and, when the quota was reached within `fuel` iterations, the number
of discovery rounds performed together with the final neighbour
count. -/
def start_update_peers {C P E : Type}
    (rnd : Option C → Except E (List P) × Option C) (quota : Nat) :
    Nat → Option C → Nat → List (REvent C) × Option (Nat × Nat)
  | 0, _, _ => ([], none)
  | fuel + 1, cur, count =>
    let roundEvts : List (REvent C) :=
      match (rnd cur).1 with
      | .error _ => [REvent.round cur, REvent.warnFail]
      | .ok _ => [REvent.round cur]
    let count' : Nat :=
      match (rnd cur).1 with
      | .error _ => count
      | .ok ps => count + ps.length
    if quota ≤ count' then
      (roundEvts, some (1, count'))
    else
      let r := start_update_peers rnd quota fuel (rnd cur).2 count'
      (roundEvts ++ REvent.sleep 5 :: r.1, r.2.map (fun p => (p.1 + 1, p.2)))

/-- The input cursors of the discovery rounds recorded in a trace. -/
def cursorsOf {C : Type} : List (REvent C) → List (Option C)
  | [] => []
  | REvent.round c :: rest => c :: cursorsOf rest
  | _ :: rest => cursorsOf rest

/-- Number of warnings in a refresh trace. -/
def warnCount {C : Type} : List (REvent C) → Nat
  | [] => 0
  | REvent.warnFail :: rest => warnCount rest + 1
  | _ :: rest => warnCount rest

/-- `rndChain step c l` holds when `l` is exactly the orbit of `step`
starting at `c`: the cursor of each round is the cursor produced by the
previous round, never reset. -/
def rndChain {C : Type} (step : Option C → Option C) : Option C → List (Option C) → Prop
  | _, [] => True
  | c, c' :: rest => c' = c ∧ rndChain step (step c) rest

/-! ## The self-announcement loops

`periodic_store_ip_addr` (lines 175-188) loops forever: call
`DhtNode::store_ip_address`, log a warning when it fails, sleep
`PERIOD_STORE_IP_ADDRESS` (500 s).  `periodic_store_overlay_node`
(lines 190-205) loops forever: call `DhtNode::store_overlay_node`, log
the returned status at info level (whatever it is), sleep the same
500 s constant.  Each model gives the event trace of the first `n`
iterations; `act i` is the outcome of the i-th network action. -/

inductive PEvent where
  | action : PEvent
  | logWarn : PEvent
  | logInfo : PEvent
  | sleep : Nat → PEvent
deriving DecidableEq, Repr

/-- Occurrences of one event in a loop trace. -/
def pCount (ev : PEvent) : List PEvent → Nat
  | [] => 0
  | e :: rest => (if e = ev then 1 else 0) + pCount ev rest

def periodic_store_ip_addr {E : Type} (act : Nat → Except E Unit) : Nat → List PEvent
  | 0 => []
  | n + 1 =>
    periodic_store_ip_addr act n ++
      (match act n with
       | .error _ => [PEvent.action, PEvent.logWarn, PEvent.sleep 500]
       | .ok _ => [PEvent.action, PEvent.sleep 500])

def periodic_store_overlay_node {E R : Type} (act : Nat → Except E R) : Nat → List PEvent
  | 0 => []
  | n + 1 =>
    periodic_store_overlay_node act n ++
      (match act n with
       | _ => [PEvent.action, PEvent.logInfo, PEvent.sleep 500])

/-! ## The DHT crawl loop `find_dht_nodes`

`find_dht_nodes` (lines 341-354) loops forever: reset the enumeration
cursor (`let mut iter = None` inside the outer loop), drain
`get_known_peer`, issue one `find_dht_nodes` query per enumerated peer
(warning on failure), then sleep `PERIOD_START_FIND_DHT_NODE` (60 s)
and restart.  `enum r` is the peer enumeration the DHT yields during
round `r`; `q p` the outcome of the query to peer `p`. -/

inductive CEvent (P : Type) where
  | query : P → CEvent P
  | warnFail : P → CEvent P
  | sleep : Nat → CEvent P
deriving DecidableEq, Repr

/-- The inner `while let Some(id) = dht.get_known_peer(&mut iter)` loop. -/
def crawlRound {P E : Type} (q : P → Except E Unit) : List P → List (CEvent P)
  | [] => []
  | p :: rest =>
    (match q p with
     | .error _ => [CEvent.query p, CEvent.warnFail p]
     | .ok _ => [CEvent.query p]) ++ crawlRound q rest

/-- The first `n` rounds of the crawl loop. -/
def find_dht_nodes {P E : Type} (enum : Nat → List P) (q : P → Except E Unit) :
    Nat → List (CEvent P)
  | 0 => []
  | n + 1 => find_dht_nodes enum q n ++ crawlRound q (enum n) ++ [CEvent.sleep 60]

/-- Peers queried in a crawl trace, in order. -/
def queriesOf {P : Type} : List (CEvent P) → List P
  | [] => []
  | CEvent.query p :: rest => p :: queriesOf rest
  | _ :: rest => queriesOf rest

/-! ## The persisted-peer read path `get_peers_from_storage`

`get_peers_from_storage` (lines 150-169): load the serialized peer list
from the key-value store (`self.db.load_node_state`); a load failure is
swallowed into `Ok(None)`; the loaded bytes are then decoded by
`serde_json::from_slice` and each entry by `AdnlNodeConfig::from_json`,
both behind the `?` operator. -/

/-- The `for item in res_json.iter()` decode loop with its `?`. -/
def mapFromJson {Cfg E : Type} (fromJson : String → Except E Cfg) :
    List String → Except E (List Cfg)
  | [] => .ok []
  | item :: rest =>
    match fromJson item with
    | .error e => .error e
    | .ok cfg =>
      match mapFromJson fromJson rest with
      | .error e => .error e
      | .ok cfgs => .ok (cfg :: cfgs)

def get_peers_from_storage {B Cfg E : Type}
    (load : Except E B)
    (parseJson : B → Except E (List String))
    (fromJson : String → Except E Cfg) :
    Except E (Option (List Cfg)) :=
  match load with
  | .error _ => .ok none
  | .ok raw =>
    match parseJson raw with
    | .error e => .error e
    | .ok items =>
      match mapFromJson fromJson items with
      | .error e => .error e
      | .ok cfgs => .ok (some cfgs)

/-! ## The bootstrap worker `get_overlay_worker`

`get_overlay_worker` (lines 374-414), straight-line with `?` exits:
`add_shard`; `get_signed_node`; spawn `periodic_store_overlay_node`;
one `update_overlay_peers` round (warn when it found no peers);
`Neighbours::new`; build the candidate `NodeClientOverlay` (`cand`);
spawn the three neighbour-health loops and `start_update_peers`; then
publish through `try_add_new_overlay`, whose returned handle (`tryAdd
cand`) is the worker's result.  The trace records the spawns, the
warning and the publish attempt. -/

inductive WEvent where
  | spawnStoreOverlayNode : WEvent
  | warnNoNodes : WEvent
  | spawnPing : WEvent
  | spawnReload : WEvent
  | spawnRndPeers : WEvent
  | spawnUpdatePeers : Nat → WEvent
  | publish : Nat → WEvent
  | cancel : WEvent
deriving DecidableEq, Repr

/-- The `add_public_peer` registration fold inside
`update_overlay_peers` (lines 282-289): idempotent registration, a
`None` answer meaning the identity was already known. -/
def registerPeers {P Q E : Type} (addPublicPeer : P → Except E (Option Q)) :
    List P → Except E (List Q)
  | [] => .ok []
  | n :: rest =>
    match addPublicPeer n with
    | .error e => .error e
    | .ok none => registerPeers addPublicPeer rest
    | .ok (some peer) =>
      match registerPeers addPublicPeer rest with
      | .error e => .error e
      | .ok peers => .ok (peer :: peers)

/-- `update_overlay_peers` (lines 274-290): query the DHT for overlay
members and register each with the transport layer, returning the
newly-seen identities. -/
def update_overlay_peers {P Q E : Type} (findNodes : Except E (List P))
    (addPublicPeer : P → Except E (Option Q)) : Except E (List Q) :=
  match findNodes with
  | .error e => .error e
  | .ok nodes => registerPeers addPublicPeer nodes

/-- Outcomes of the external calls `get_overlay_worker` makes. -/
structure WorkerEnv (P Q E : Type) where
  addShard : Except E Unit
  getSignedNode : Except E Unit
  findNodes : Except E (List P)
  addPublicPeer : P → Except E (Option Q)
  neighboursNew : Except E Unit

def get_overlay_worker {P Q E : Type} (env : WorkerEnv P Q E) (cand : Nat)
    (tryAdd : Nat → Nat) : List WEvent × Except E Nat :=
  match env.addShard with
  | .error e => ([], .error e)
  | .ok _ =>
    match env.getSignedNode with
    | .error e => ([], .error e)
    | .ok _ =>
      match update_overlay_peers env.findNodes env.addPublicPeer with
      | .error e => ([WEvent.spawnStoreOverlayNode], .error e)
      | .ok peers =>
        let evts1 := WEvent.spawnStoreOverlayNode ::
          (if peers.isEmpty then [WEvent.warnNoNodes] else [])
        match env.neighboursNew with
        | .error e => (evts1, .error e)
        | .ok _ =>
          (evts1 ++ [WEvent.spawnPing, WEvent.spawnReload, WEvent.spawnRndPeers,
            WEvent.spawnUpdatePeers cand, WEvent.publish cand],
           .ok (tryAdd cand))

/-! ## Concurrent resolution: a trace semantics for `get_overlay`

Modelled from the spec: the Single-Flight Coordinator
(`AwaitersPool::do_or_wait`, whose source is outside this core) runs
the work when none is in flight for the key, otherwise joins the
in-flight attempt; it answers `None` to the caller whose own freshly
built handle lost the publish race, and the in-flight result to every
joined waiter.  `get_overlay` itself (lines 445-461) contributes the
cache lookup, the coordinator submission and the retry on `None`.
Handles are identified by the order in which workers build them; the
`lost` component records candidates discarded by a lost publish
race. -/

inductive CallerPc where
  | start : CallerPc
  | missed : CallerPc
  | working : Option Nat → CallerPc
  | waiting : CallerPc
  | done : Nat → CallerPc
deriving DecidableEq, Repr

structure Sys where
  cache : Option Nat
  nextHandle : Nat
  callers : List CallerPc
  lost : List Nat
deriving DecidableEq, Repr

inductive Label where
  | hit : Nat → Label
  | miss : Nat → Label
  | startWork : Nat → Label
  | join : Nat → Label
  | build : Nat → Label
  | publishWin : Nat → Label
  | publishLose : Nat → Label
deriving DecidableEq, Repr

def isWorking : CallerPc → Bool
  | .working _ => true
  | _ => false

/-- The coordinator has no work in flight for the key. -/
def noWorker (s : Sys) : Bool := s.callers.all (fun pc => !(isWorking pc))

/-- Completion of the in-flight work hands its result to every joined
waiter. -/
def deliver (r : Nat) : CallerPc → CallerPc
  | .waiting => .done r
  | pc => pc

/-- One interleaving step of the N concurrent `get_overlay` calls.
`hit`/`miss` are the cache lookup at the top of the retry loop;
`startWork`/`join` the submission to the coordinator; `build` the
bootstrap workflow constructing a fresh candidate handle;
`publishWin`/`publishLose` the `try_add_new_overlay` of the worker with
atomic completion of the in-flight record (a losing worker receives
`None` and retries its lookup, its candidate is discarded into
`lost`). -/
def applyLabel (s : Sys) : Label → Option Sys
  | .hit i =>
    match s.callers[i]?, s.cache with
    | some CallerPc.start, some v => some { s with callers := s.callers.set i (.done v) }
    | _, _ => none
  | .miss i =>
    match s.callers[i]?, s.cache with
    | some CallerPc.start, none => some { s with callers := s.callers.set i .missed }
    | _, _ => none
  | .startWork i =>
    match s.callers[i]? with
    | some CallerPc.missed =>
      if noWorker s then some { s with callers := s.callers.set i (.working none) } else none
    | _ => none
  | .join i =>
    match s.callers[i]? with
    | some CallerPc.missed =>
      if noWorker s then none else some { s with callers := s.callers.set i .waiting }
    | _ => none
  | .build i =>
    match s.callers[i]? with
    | some (CallerPc.working none) =>
      some { s with callers := s.callers.set i (.working (some s.nextHandle)),
                    nextHandle := s.nextHandle + 1 }
    | _ => none
  | .publishWin i =>
    match s.callers[i]?, s.cache with
    | some (CallerPc.working (some c)), none =>
      some { s with cache := some c,
                    callers := (s.callers.map (deliver c)).set i (.done c) }
    | _, _ => none
  | .publishLose i =>
    match s.callers[i]?, s.cache with
    | some (CallerPc.working (some c)), some r =>
      some { s with callers := (s.callers.map (deliver r)).set i .start,
                    lost := c :: s.lost }
    | _, _ => none

/-- N callers about to resolve the same identifier, empty cache. -/
def initSys (n : Nat) : Sys :=
  { cache := none, nextHandle := 0, callers := List.replicate n .start, lost := [] }

def runTrace (s : Sys) : List Label → Option Sys
  | [] => some s
  | l :: tr =>
    match applyLabel s l with
    | none => none
    | some s' => runTrace s' tr

/-- Number of Bootstrap Workflow executions recorded in a trace. -/
def startWorkCount : List Label → Nat
  | [] => 0
  | Label.startWork _ :: tr => startWorkCount tr + 1
  | _ :: tr => startWorkCount tr

def allDone (s : Sys) : Bool :=
  s.callers.all (fun pc => match pc with | .done _ => true | _ => false)

/-- Inductive invariant of the concurrent-resolution semantics: at most
one worker is in flight, completed callers hold exactly the resident
handle, candidate handles are fresh, and discarded candidates are
disjoint from the resident one. -/
structure Inv (s : Sys) : Prop where
  oneWorker : ∀ (i j : Nat) (ci cj : Option Nat),
    s.callers[i]? = some (CallerPc.working ci) →
    s.callers[j]? = some (CallerPc.working cj) → i = j
  doneCache : ∀ (i v : Nat), s.callers[i]? = some (CallerPc.done v) → s.cache = some v
  cacheFresh : ∀ v : Nat, s.cache = some v → v < s.nextHandle
  workFresh : ∀ (i c : Nat), s.callers[i]? = some (CallerPc.working (some c)) →
    c < s.nextHandle
  workNotCache : ∀ (i c : Nat), s.callers[i]? = some (CallerPc.working (some c)) →
    s.cache ≠ some c
  workNotLost : ∀ (i c : Nat), s.callers[i]? = some (CallerPc.working (some c)) →
    c ∉ s.lost
  lostFresh : ∀ c ∈ s.lost, c < s.nextHandle
  lostNotCache : ∀ c ∈ s.lost, s.cache ≠ some c

/-- A state in which no bootstrap has ever been selected to run: empty
cache and every caller still before its coordinator submission. -/
def quiet (s : Sys) : Prop :=
  s.cache = none ∧ ∀ pc ∈ s.callers, pc = CallerPc.start ∨ pc = CallerPc.missed

end NodeNet

namespace NodeNet

/-! ## Theorems: registry insertion protocol -/

/-- With the overlay closure, the insertion never reports `updated`:
any occupied observation triggers `discard`, so a successful CAS only
ever happens over an empty slot. -/
theorem insertWith_overlayClosure_ne_updated {V : Type} (candidate : V) :
    ∀ (interference : List (Option V)) (prevGen cur : Option V) (old : V),
      insertWith (overlayClosure candidate) interference prevGen cur ≠ .updated old := by
  intro interference
  induction interference with
  | nil =>
    intro prevGen cur old
    cases cur with
    | none =>
      cases prevGen with
      | none => simp [insertWith, overlayClosure]
      | some g => simp [insertWith, overlayClosure]
    | some c => simp [insertWith, overlayClosure]
  | cons newCur rest ih =>
    intro prevGen cur old
    cases cur with
    | none =>
      cases prevGen with
      | none => simpa [insertWith, overlayClosure] using ih (some candidate) newCur old
      | some g => simpa [insertWith, overlayClosure] using ih (some g) newCur old
    | some c => simp [insertWith, overlayClosure]

/-- If every observation of the slot is empty, the insertion creates
the candidate's entry. -/
theorem insertWith_overlayClosure_created {V : Type} (candidate : V) :
    ∀ (interference : List (Option V)) (prevGen : Option V),
      (∀ x ∈ interference, x = none) →
      insertWith (overlayClosure candidate) interference prevGen none = .created := by
  intro interference
  induction interference with
  | nil =>
    intro prevGen _
    cases prevGen with
    | none => simp [insertWith, overlayClosure]
    | some g => simp [insertWith, overlayClosure]
  | cons newCur rest ih =>
    intro prevGen hall
    have hcur : newCur = none := hall newCur (List.mem_cons_self _ _)
    subst hcur
    have hrest : ∀ x ∈ rest, x = none := fun x hx => hall x (List.mem_cons_of_mem _ hx)
    cases prevGen with
    | none => simpa [insertWith, overlayClosure] using ih (some candidate) hrest
    | some g => simpa [insertWith, overlayClosure] using ih (some g) hrest

/-- If some observation of the slot is occupied, the insertion fails
(the candidate is discarded). -/
theorem insertWith_overlayClosure_failed {V : Type} (candidate : V) :
    ∀ (interference : List (Option V)) (prevGen cur : Option V),
      ((cur :: interference).any Option.isSome) →
      insertWith (overlayClosure candidate) interference prevGen cur = .failed := by
  intro interference
  induction interference with
  | nil =>
    intro prevGen cur h
    cases cur with
    | none => simp [List.any] at h
    | some c => simp [insertWith, overlayClosure]
  | cons newCur rest ih =>
    intro prevGen cur h
    cases cur with
    | some c => simp [insertWith, overlayClosure]
    | none =>
      have h' : (newCur :: rest).any Option.isSome := by
        simpa [List.any] using h
      cases prevGen with
      | none => simpa [insertWith, overlayClosure] using ih (some candidate) newCur h'
      | some g => simpa [insertWith, overlayClosure] using ih (some g) newCur h'

/-- Conversely, a failed insertion means some observation was occupied. -/
theorem insertWith_overlayClosure_failed_source {V : Type} (candidate : V) :
    ∀ (interference : List (Option V)) (prevGen cur : Option V),
      insertWith (overlayClosure candidate) interference prevGen cur = .failed →
      ((cur :: interference).any Option.isSome) := by
  intro interference
  induction interference with
  | nil =>
    intro prevGen cur h
    cases cur with
    | some c => simp [List.any]
    | none =>
      exfalso
      cases prevGen with
      | none => simp [insertWith, overlayClosure] at h
      | some g => simp [insertWith, overlayClosure] at h
  | cons newCur rest ih =>
    intro prevGen cur h
    cases cur with
    | some c => simp [List.any]
    | none =>
      cases prevGen with
      | none =>
        have := ih (some candidate) newCur (by simpa [insertWith, overlayClosure] using h)
        simpa [List.any] using this
      | some g =>
        have := ih (some g) newCur (by simpa [insertWith, overlayClosure] using h)
        simpa [List.any] using this

/-- In a persistent history, any resident value determines the final
observation. -/
theorem persists_mem_last {V : Type} [DecidableEq V] :
    ∀ (l : List (Option V)) (x : Option V) (v : V),
      persists (l ++ [x]) → some v ∈ l → x = some v := by
  intro l
  induction l with
  | nil => intro x v _ hmem; simp at hmem
  | cons o rest ih =>
    intro x v hp hmem
    cases o with
    | none =>
      have hp' : persists (rest ++ [x]) := by simpa [persists] using hp
      rcases List.mem_cons.mp hmem with h | h
      · exact absurd h.symm (by simp)
      · exact ih x v hp' h
    | some w =>
      have hp' : (∀ y ∈ rest ++ [x], y = some w) ∧ persists (rest ++ [x]) := by
        simpa [persists] using hp
      rcases List.mem_cons.mp hmem with h | h
      · have hx : x = some w := hp'.1 x (by simp)
        rw [hx]; exact h.symm
      · have : (some v : Option V) = some w := hp'.1 _ (List.mem_append_left _ h)
        have hx : x = some w := hp'.1 x (by simp)
        rw [hx]; exact this.symm

/-- Claim C2: registry publication is an atomic insert-only-if-absent
with exactly three outcomes: (1) every observation of the slot empty →
the candidate becomes resident and is returned; (2) another attempt
already inserted a value → this candidate is discarded and the resident
value is returned; (3) the `updated` outcome never occurs under the
create-or-discard closure — its match arm is the `unreachable!` panic,
and `try_add_new_overlay` never reaches it. -/
theorem try_add_new_overlay_three_outcomes {V : Type} [DecidableEq V]
    (candidate : V) (interference : List (Option V)) (cur getRes : Option V)
    (hp : persists (cur :: interference ++ [getRes])) :
    ((∀ x ∈ cur :: interference, x = none) →
      try_add_new_overlay candidate interference cur getRes = .ok candidate)
    ∧ (∀ v, some v ∈ cur :: interference →
      try_add_new_overlay candidate interference cur getRes = .ok v)
    ∧ (∀ old, insertWith (overlayClosure candidate) interference none cur ≠ .updated old)
    ∧ (∀ old (g : Option V),
        tryAddDispatch candidate g (.updated old) = TryAddResult.panicUnreachable)
    ∧ try_add_new_overlay candidate interference cur getRes ≠ .panicUnreachable := by
  refine ⟨?_, ?_, insertWith_overlayClosure_ne_updated candidate interference none cur,
    fun old g => rfl, ?_⟩
  · intro hall
    have hcur : cur = none := hall cur (List.mem_cons_self _ _)
    subst hcur
    have hrest : ∀ x ∈ interference, x = none :=
      fun x hx => hall x (List.mem_cons_of_mem _ hx)
    unfold try_add_new_overlay
    rw [insertWith_overlayClosure_created candidate interference none hrest]
    rfl
  · intro v hv
    have hany : (cur :: interference).any Option.isSome = true :=
      List.any_eq_true.mpr ⟨some v, hv, rfl⟩
    have hfail := insertWith_overlayClosure_failed candidate interference none cur hany
    have hget : getRes = some v := persists_mem_last (cur :: interference) getRes v hp hv
    unfold try_add_new_overlay
    rw [hfail, hget]
    rfl
  · unfold try_add_new_overlay
    cases hins : insertWith (overlayClosure candidate) interference none cur with
    | created => simp [tryAddDispatch]
    | updated old => exact absurd hins (insertWith_overlayClosure_ne_updated candidate _ _ _ old)
    | failed =>
      cases getRes with
      | none => simp [tryAddDispatch]
      | some r => simp [tryAddDispatch]

/-- Witness for C2: a lone attempt with one CAS retry over an empty
slot installs and returns its own candidate. -/
theorem try_add_new_overlay_three_outcomes_witness :
    try_add_new_overlay 7 ([none] : List (Option Nat)) none (some 7) = .ok 7 :=
  (try_add_new_overlay_three_outcomes 7 [none] none (some 7) (by decide)).1 (by decide)

/-! ## Theorems: the cache never removes or replaces -/

/-- A single cache operation of the source preserves residency. -/
theorem applyOp_preserves {K V : Type} [DecidableEq K]
    (cache : K → Option V) (op : CacheOp K V) (id : K) (h : V)
    (hres : cache id = some h) : applyOp cache op id = some h := by
  cases op with
  | casInsert id' v =>
    by_cases hid : id = id'
    · subst hid; simp [applyOp, hres]
    · simp [applyOp, hid, hres]
  | read k => simpa [applyOp] using hres

theorem applyOps_preserves {K V : Type} [DecidableEq K] :
    ∀ (ops : List (CacheOp K V)) (cache : K → Option V) (id : K) (h : V),
      cache id = some h → applyOps cache ops id = some h := by
  intro ops
  induction ops with
  | nil => intro cache id h hres; simpa [applyOps] using hres
  | cons op rest ih =>
    intro cache id h hres
    have := applyOp_preserves cache op id h hres
    simpa [applyOps] using ih (fun k => applyOp cache op k) id h this

theorem slotHistory_resident {K V : Type} [DecidableEq K] :
    ∀ (ops : List (CacheOp K V)) (cache : K → Option V) (id : K) (v : V),
      cache id = some v → ∀ x ∈ slotHistory cache ops id, x = some v := by
  intro ops
  induction ops with
  | nil =>
    intro cache id v hres x hx
    simp only [slotHistory, List.mem_singleton] at hx
    rw [hx, hres]
  | cons op rest ih =>
    intro cache id v hres x hx
    simp only [slotHistory, List.mem_cons] at hx
    rcases hx with hx | hx
    · rw [hx, hres]
    · exact ih (fun k => applyOp cache op k) id v (applyOp_preserves cache op id v hres) x hx

theorem slotHistory_persists {K V : Type} [DecidableEq K] [DecidableEq V] :
    ∀ (ops : List (CacheOp K V)) (cache : K → Option V) (id : K),
      persists (slotHistory cache ops id) := by
  intro ops
  induction ops with
  | nil =>
    intro cache id
    cases h : cache id with
    | none => simp [slotHistory, h, persists]
    | some v => simp [slotHistory, h, persists]
  | cons op rest ih =>
    intro cache id
    cases h : cache id with
    | none =>
      simpa [slotHistory, h, persists] using ih (fun k => applyOp cache op k) id
    | some v =>
      have h1 : ∀ x ∈ slotHistory (fun k => applyOp cache op k) rest id, x = some v :=
        slotHistory_resident rest (fun k => applyOp cache op k) id v
          (applyOp_preserves cache op id v h)
      have h2 : persists (slotHistory (fun k => applyOp cache op k) rest id) :=
        ih (fun k => applyOp cache op k) id
      simp only [slotHistory, h, persists]
      exact ⟨h1, h2⟩

/-- The fallback `get ... unwrap()` of a failed insertion cannot panic
over a persistent slot history. -/
theorem try_add_new_overlay_unwrap_safe {V : Type} [DecidableEq V]
    (candidate : V) (interference : List (Option V)) (cur getRes : Option V)
    (hp : persists (cur :: interference ++ [getRes])) :
    try_add_new_overlay candidate interference cur getRes ≠ .panicUnwrap := by
  unfold try_add_new_overlay
  cases hins : insertWith (overlayClosure candidate) interference none cur with
  | created => simp [tryAddDispatch]
  | updated old => exact absurd hins (insertWith_overlayClosure_ne_updated candidate _ _ _ old)
  | failed =>
    have hany := insertWith_overlayClosure_failed_source candidate interference none cur hins
    rcases List.any_eq_true.mp hany with ⟨x, hx, hxs⟩
    cases x with
    | none => simp at hxs
    | some v =>
      have hget : getRes = some v := persists_mem_last (cur :: interference) getRes v hp hx
      rw [hget]
      simp [tryAddDispatch]

/-- Claim C4: no operation of the core removes or replaces a cache
entry — a resident handle persists across every run of cache
operations, its identity never changes, the slot history is persistent,
every later `get_overlay` resolve of the identifier returns the same
resident handle with no coordinator submission, and the lookup after a
failed insertion inside `try_add_new_overlay` cannot panic. -/
theorem overlay_cache_insert_only {K V : Type} [DecidableEq K] [DecidableEq V]
    (cache : K → Option V) (ops : List (CacheOp K V)) (id : K) (h : V)
    (hres : cache id = some h) :
    applyOps cache ops id = some h
    ∧ (∀ h', applyOps cache ops id = some h' → h' = h)
    ∧ persists (slotHistory cache ops id)
    ∧ (∀ (doOrWaitAt : Nat → Except Unit (Option V)) (fuel t : Nat),
        get_overlay (fun _ => applyOps cache ops id) doOrWaitAt (fuel + 1) t
          = (some (Except.ok h), 0))
    ∧ (∀ (candidate : V) (interference : List (Option V)) (cur getRes : Option V),
        persists (cur :: interference ++ [getRes]) →
        try_add_new_overlay candidate interference cur getRes ≠ .panicUnwrap) := by
  have hkeep := applyOps_preserves ops cache id h hres
  refine ⟨hkeep, ?_, slotHistory_persists ops cache id, ?_, ?_⟩
  · intro h' hh'
    rw [hkeep] at hh'
    exact (Option.some_inj.mp hh').symm
  · intro doOrWaitAt fuel t
    simp [get_overlay, hkeep]
  · intro candidate interference cur getRes hp
    exact try_add_new_overlay_unwrap_safe candidate interference cur getRes hp

/-- Witness for C4: a resident handle survives an unrelated CAS insert
and a read. -/
theorem overlay_cache_insert_only_witness :
    applyOps (fun k : Nat => if k = 0 then some 3 else none)
      [CacheOp.casInsert 1 5, CacheOp.read 0] 0 = some (3 : Nat) :=
  (overlay_cache_insert_only (fun k : Nat => if k = 0 then some 3 else none)
    [CacheOp.casInsert 1 5, CacheOp.read 0] 0 3 rfl).1

/-! ## Theorems: the resolve loop -/

/-- Monotone caches keep a resident value at every later time. -/
theorem cacheMono_iterate {V : Type} (cacheAt : Nat → Option V)
    (hm : cacheMono cacheAt) (s : Nat) (v : V) (hv : cacheAt s = some v) :
    ∀ d, cacheAt (s + d) = some v := by
  intro d
  induction d with
  | zero => simpa using hv
  | succ d ih => exact hm (s + d) v ih

/-- If the cache becomes resident within the fuel bound and every
coordinator submission reports `None`, the resolve loop returns the
resident handle. -/
theorem get_overlay_eventually {V E : Type} (cacheAt : Nat → Option V)
    (doOrWaitAt : Nat → Except E (Option V))
    (hm : cacheMono cacheAt) (hc : ∀ s, doOrWaitAt s = .ok none) :
    ∀ (k fuel t : Nat) (v : V), cacheAt (t + k) = some v → k < fuel →
      (get_overlay cacheAt doOrWaitAt fuel t).1 = some (Except.ok v) := by
  intro k
  induction k with
  | zero =>
    intro fuel t v hv hlt
    obtain ⟨f, rfl⟩ : ∃ f, fuel = f + 1 := ⟨fuel - 1, by omega⟩
    have h0 : cacheAt t = some v := by simpa using hv
    simp [get_overlay, h0]
  | succ k ih =>
    intro fuel t v hv hlt
    obtain ⟨f, rfl⟩ : ∃ f, fuel = f + 1 := ⟨fuel - 1, by omega⟩
    cases h0 : cacheAt t with
    | some w =>
      have hw : cacheAt (t + (k + 1)) = some w := cacheMono_iterate cacheAt hm t w h0 (k + 1)
      rw [hv] at hw
      have : v = w := Option.some_inj.mp hw
      subst this
      simp [get_overlay, h0]
    | none =>
      have harr : t + 1 + k = t + (k + 1) := by omega
      have hv' : cacheAt (t + 1 + k) = some v := by rw [harr]; exact hv
      have := ih f (t + 1) v hv' (by omega)
      simp [get_overlay, h0, hc t, this]

/-- Claim C3: on a hit `get_overlay` returns the cached handle with no
coordinator submission; on a miss it submits the bootstrap worker to
the coordinator; a `None` answer re-checks the cache and returns the
now-resident handle; and the retry loop returns a handle whenever one
becomes resident while the coordinator keeps answering `None`. -/
theorem get_overlay_resolution {V E : Type} (cacheAt : Nat → Option V)
    (doOrWaitAt : Nat → Except E (Option V)) (fuel t : Nat) :
    (∀ v, cacheAt t = some v →
      get_overlay cacheAt doOrWaitAt (fuel + 1) t = (some (Except.ok v), 0))
    ∧ (cacheAt t = none →
      1 ≤ (get_overlay cacheAt doOrWaitAt (fuel + 1) t).2)
    ∧ (∀ v, cacheAt t = none → doOrWaitAt t = .ok none → cacheAt (t + 1) = some v →
      get_overlay cacheAt doOrWaitAt (fuel + 2) t = (some (Except.ok v), 1))
    ∧ (∀ (v : V) (k : Nat), cacheMono cacheAt → (∀ s, doOrWaitAt s = .ok none) →
      cacheAt (t + k) = some v → k < fuel + 1 →
      (get_overlay cacheAt doOrWaitAt (fuel + 1) t).1 = some (Except.ok v)) := by
  refine ⟨?_, ?_, ?_, ?_⟩
  · intro v hv
    simp [get_overlay, hv]
  · intro h0
    cases hd : doOrWaitAt t with
    | error e => simp [get_overlay, h0, hd]
    | ok o =>
      cases o with
      | none => simp [get_overlay, h0, hd]
      | some v => simp [get_overlay, h0, hd]
  · intro v h0 hd h1
    simp [get_overlay, h0, hd, h1]
  · intro v k hm hc hv hlt
    exact get_overlay_eventually cacheAt doOrWaitAt hm hc k (fuel + 1) t v hv hlt

/-- Witness for C3 at concrete caches and coordinator answers. -/
theorem get_overlay_resolution_witness :
    get_overlay (fun _ : Nat => some (9 : Nat))
      (fun _ => (Except.ok none : Except Unit (Option Nat))) 1 0
      = (some (Except.ok 9), 0)
    ∧ 1 ≤ (get_overlay (fun s : Nat => if s = 0 then none else some (9 : Nat))
      (fun _ => (Except.ok none : Except Unit (Option Nat))) 1 0).2
    ∧ get_overlay (fun s : Nat => if s = 0 then none else some (9 : Nat))
      (fun _ => (Except.ok none : Except Unit (Option Nat))) 2 0
      = (some (Except.ok 9), 1)
    ∧ (get_overlay (fun _ : Nat => some (9 : Nat))
      (fun _ => (Except.ok none : Except Unit (Option Nat))) 1 0).1
      = some (Except.ok 9) := by
  refine ⟨?_, ?_, ?_, ?_⟩
  · exact (get_overlay_resolution (fun _ => some 9) (fun _ => Except.ok none) 0 0).1 9 rfl
  · exact (get_overlay_resolution (fun s : Nat => if s = 0 then none else some 9)
      (fun _ => Except.ok none) 0 0).2.1 rfl
  · exact (get_overlay_resolution (fun s : Nat => if s = 0 then none else some 9)
      (fun _ => Except.ok none) 0 0).2.2.1 9 rfl rfl rfl
  · exact (get_overlay_resolution (fun _ => some 9) (fun _ => Except.ok none) 0 0).2.2.2 9 0
      (fun _ _ hv => hv) (fun _ => rfl) rfl (by omega)

/-! ## Theorems: the peer-refresh loop -/

/-- With discovery yielding `k` new peers per round, the loop stops at
the first round count `r + 1` whose cumulative total reaches the
quota. -/
theorem start_update_peers_uniform {C P E : Type}
    (rnd : Option C → Except E (List P) × Option C) (quota k : Nat)
    (huni : ∀ c, ∃ ps : List P, (rnd c).1 = .ok ps ∧ ps.length = k) :
    ∀ (fuel count : Nat) (cur : Option C),
      count < quota → quota ≤ count + fuel * k →
      ∃ r, (start_update_peers rnd quota fuel cur count).2
            = some (r + 1, count + (r + 1) * k)
        ∧ count + r * k < quota ∧ quota ≤ count + (r + 1) * k := by
  intro fuel
  induction fuel with
  | zero => intro count cur h1 h2; simp at h2; omega
  | succ fuel ih =>
    intro count cur h1 h2
    obtain ⟨ps, hok, hlen⟩ := huni cur
    by_cases hq : quota ≤ count + k
    · refine ⟨0, ?_, by simpa using h1, by simpa using hq⟩
      simp [start_update_peers, hok, hlen, hq]
    · have hmul : (fuel + 1) * k = fuel * k + k := by ring
      rw [hmul] at h2
      obtain ⟨r, hr, hb1, hb2⟩ := ih (count + k) ((rnd cur).2) (by omega) (by omega)
      have e1 : count + k + (r + 1) * k = count + (r + 1 + 1) * k := by ring
      have e2 : (r + 1) * k = r * k + k := by ring
      have e3 : (r + 1 + 1) * k = (r + 1) * k + k := by ring
      refine ⟨r + 1, ?_, by omega, by omega⟩
      simp only [start_update_peers, hok, hlen]
      rw [if_neg hq]
      simp only [hr]
      simp [e1]

/-- The loop only ever reports termination with the quota reached. -/
theorem start_update_peers_stops_at_quota {C P E : Type}
    (rnd : Option C → Except E (List P) × Option C) (quota : Nat) :
    ∀ (fuel count : Nat) (cur : Option C) (r fin : Nat),
      (start_update_peers rnd quota fuel cur count).2 = some (r, fin) → quota ≤ fin := by
  intro fuel
  induction fuel with
  | zero => intro count cur r fin h; simp [start_update_peers] at h
  | succ fuel ih =>
    intro count cur r fin h
    cases hok : (rnd cur).1 with
    | error e =>
      by_cases hq : quota ≤ count
      · simp [start_update_peers, hok, hq] at h
        omega
      · have hstep : (start_update_peers rnd quota (fuel + 1) cur count).2
            = ((start_update_peers rnd quota fuel ((rnd cur).2) count).2).map
                (fun p => (p.1 + 1, p.2)) := by
          simp [start_update_peers, hok, hq]
        rw [hstep] at h
        cases hrec : (start_update_peers rnd quota fuel ((rnd cur).2) count).2 with
        | none => rw [hrec] at h; simp at h
        | some p =>
          rw [hrec] at h
          simp at h
          exact h.2 ▸ ih count ((rnd cur).2) p.1 p.2 hrec
    | ok ps =>
      by_cases hq : quota ≤ count + ps.length
      · simp [start_update_peers, hok, hq] at h
        omega
      · have hstep : (start_update_peers rnd quota (fuel + 1) cur count).2
            = ((start_update_peers rnd quota fuel ((rnd cur).2) (count + ps.length)).2).map
                (fun p => (p.1 + 1, p.2)) := by
          simp [start_update_peers, hok, hq]
        rw [hstep] at h
        cases hrec : (start_update_peers rnd quota fuel ((rnd cur).2) (count + ps.length)).2 with
        | none => rw [hrec] at h; simp at h
        | some p =>
          rw [hrec] at h
          simp at h
          exact h.2 ▸ ih (count + ps.length) ((rnd cur).2) p.1 p.2 hrec

/-- The cursor of each discovery round is exactly the cursor produced
by the previous round, starting from `None` — preserved, never
reset. -/
theorem start_update_peers_chain {C P E : Type}
    (rnd : Option C → Except E (List P) × Option C) (quota : Nat) :
    ∀ (fuel count : Nat) (cur : Option C),
      rndChain (fun c => (rnd c).2) cur
        (cursorsOf (start_update_peers rnd quota fuel cur count).1) := by
  intro fuel
  induction fuel with
  | zero => intro count cur; simp [start_update_peers, cursorsOf, rndChain]
  | succ fuel ih =>
    intro count cur
    cases hok : (rnd cur).1 with
    | error e =>
      by_cases hq : quota ≤ count
      · simp [start_update_peers, hok, hq, cursorsOf, rndChain]
      · simpa [start_update_peers, hok, hq, cursorsOf, rndChain] using
          ih count ((rnd cur).2)
    | ok ps =>
      by_cases hq : quota ≤ count + ps.length
      · simp [start_update_peers, hok, hq, cursorsOf, rndChain]
      · simpa [start_update_peers, hok, hq, cursorsOf, rndChain] using
          ih (count + ps.length) ((rnd cur).2)

/-- Every sleep of the refresh loop is the fixed 5 seconds. -/
theorem start_update_peers_sleep5 {C P E : Type}
    (rnd : Option C → Except E (List P) × Option C) (quota : Nat) :
    ∀ (fuel count : Nat) (cur : Option C) (secs : Nat),
      REvent.sleep secs ∈ (start_update_peers rnd quota fuel cur count).1 → secs = 5 := by
  intro fuel
  induction fuel with
  | zero => intro count cur secs h; simp [start_update_peers] at h
  | succ fuel ih =>
    intro count cur secs h
    cases hok : (rnd cur).1 with
    | error e =>
      by_cases hq : quota ≤ count
      · simp [start_update_peers, hok, hq] at h
      · simp [start_update_peers, hok, hq] at h
        rcases h with h | h
        · exact h
        · exact ih count ((rnd cur).2) secs h
    | ok ps =>
      by_cases hq : quota ≤ count + ps.length
      · simp [start_update_peers, hok, hq] at h
      · simp [start_update_peers, hok, hq] at h
        rcases h with h | h
        · exact h
        · exact ih (count + ps.length) ((rnd cur).2) secs h

/-- A failing discovery round is logged and the loop keeps running. -/
theorem start_update_peers_fail {C P E : Type}
    (rnd : Option C → Except E (List P) × Option C)
    (hfail : ∀ c, ∃ e, (rnd c).1 = .error e) (quota : Nat) :
    ∀ (fuel count : Nat) (cur : Option C), count < quota →
      (start_update_peers rnd quota fuel cur count).2 = none
      ∧ warnCount (start_update_peers rnd quota fuel cur count).1 = fuel := by
  intro fuel
  induction fuel with
  | zero => intro count cur h; exact ⟨rfl, rfl⟩
  | succ fuel ih =>
    intro count cur h
    obtain ⟨e, he⟩ := hfail cur
    have hq : ¬ quota ≤ count := by omega
    obtain ⟨ih1, ih2⟩ := ih count ((rnd cur).2) h
    constructor
    · simp [start_update_peers, he, hq, ih1]
    · simp [start_update_peers, he, hq, warnCount, ih2]

/-- A single failing round logs a warning into the trace. -/
theorem start_update_peers_warn_mem {C P E : Type}
    (rnd : Option C → Except E (List P) × Option C)
    (quota fuel count : Nat) (cur : Option C) (e : E)
    (he : (rnd cur).1 = .error e) :
    REvent.warnFail ∈ (start_update_peers rnd quota (fuel + 1) cur count).1 := by
  by_cases hq : quota ≤ count
  · simp [start_update_peers, he, hq]
  · simp [start_update_peers, he, hq]

/-- The stopping round count is the ceiling of quota over peers per
round. -/
theorem rounds_eq_ceil (k Q r : Nat) (hk : 1 ≤ k) (h1 : r * k < Q)
    (h2 : Q ≤ (r + 1) * k) : r + 1 = (Q + k - 1) / k := by
  have hb : (r + 1) * k = r * k + k := by ring
  have hc : (r + 2) * k = r * k + k + k := by ring
  refine Nat.le_antisymm ?_ ?_
  · rw [Nat.le_div_iff_mul_le (by omega)]
    omega
  · have hlt : (Q + k - 1) / k < r + 2 := by
      rw [Nat.div_lt_iff_lt_mul (by omega)]
      omega
    omega

/-- Claim C6: the Peer-Refresh Loop threads one cursor across
iterations (never reset), sleeps a fixed 5 seconds between rounds,
terminates exactly when the neighbour count reaches the quota — with
`k` fresh peers per round and quota `Q` after exactly `ceil(Q / k)`
rounds — and a failed round is logged as a warning without stopping
the loop. -/
theorem start_update_peers_refresh_loop {C P E : Type}
    (rnd rndU rndF : Option C → Except E (List P) × Option C) (k Q : Nat)
    (hk : 1 ≤ k) (hQ : 1 ≤ Q)
    (huni : ∀ c, ∃ ps : List P, (rndU c).1 = .ok ps ∧ ps.length = k)
    (hfail : ∀ c, ∃ e, (rndF c).1 = .error e) :
    (∃ fin, (start_update_peers rndU Q Q none 0).2 = some ((Q + k - 1) / k, fin)
      ∧ Q ≤ fin)
    ∧ (∀ (fuel count : Nat) (cur : Option C),
        rndChain (fun c => (rnd c).2) cur
          (cursorsOf (start_update_peers rnd Q fuel cur count).1))
    ∧ (∀ (fuel count : Nat) (cur : Option C) (secs : Nat),
        REvent.sleep secs ∈ (start_update_peers rnd Q fuel cur count).1 → secs = 5)
    ∧ (∀ (fuel count : Nat) (cur : Option C) (r fin : Nat),
        (start_update_peers rnd Q fuel cur count).2 = some (r, fin) → Q ≤ fin)
    ∧ (∀ (fuel count : Nat) (cur : Option C), count < Q →
        (start_update_peers rndF Q fuel cur count).2 = none
        ∧ warnCount (start_update_peers rndF Q fuel cur count).1 = fuel) := by
  refine ⟨?_, start_update_peers_chain rnd Q, start_update_peers_sleep5 rnd Q,
    start_update_peers_stops_at_quota rnd Q, start_update_peers_fail rndF hfail Q⟩
  have hQk : Q ≤ 0 + Q * k := by
    have := Nat.mul_le_mul_left Q hk
    simpa using this
  obtain ⟨r, hr, hb1, hb2⟩ := start_update_peers_uniform rndU Q k huni Q 0 none hQ hQk
  refine ⟨(r + 1) * k, ?_, by simpa using hb2⟩
  rw [← rounds_eq_ceil k Q r hk (by simpa using hb1) (by simpa using hb2)]
  simpa using hr

/-- Witness for C6: quota 3 with 2 fresh peers per round stops after
ceil(3/2) = 2 rounds; an always-failing discovery mock warns every
round and never terminates the loop. -/
theorem start_update_peers_refresh_loop_witness :
    (∃ fin, (start_update_peers
        (fun _ : Option Nat => ((Except.ok [(), ()] : Except Unit (List Unit)), some 0))
        3 3 none 0).2 = some (2, fin) ∧ 3 ≤ fin)
    ∧ warnCount (start_update_peers
        (fun c : Option Nat => ((Except.error () : Except Unit (List Unit)), c))
        3 2 none 0).1 = 2 := by
  have h := start_update_peers_refresh_loop
    (fun _ : Option Nat => ((Except.ok [(), ()] : Except Unit (List Unit)), some 0))
    (fun _ : Option Nat => ((Except.ok [(), ()] : Except Unit (List Unit)), some 0))
    (fun c : Option Nat => ((Except.error () : Except Unit (List Unit)), c))
    2 3 (by omega) (by omega)
    (fun _ => ⟨[(), ()], rfl, rfl⟩)
    (fun c => ⟨(), rfl⟩)
  refine ⟨?_, (h.2.2.2.2 2 0 none (by omega)).2⟩
  simpa using h.1

/-! ## Theorems: self-announcement loops -/

theorem pCount_append (ev : PEvent) :
    ∀ l1 l2 : List PEvent, pCount ev (l1 ++ l2) = pCount ev l1 + pCount ev l2 := by
  intro l1 l2
  induction l1 with
  | nil => simp [pCount]
  | cons e rest ih => simp [pCount, ih]; omega

/-- Counterexample for claim C7: the overlay-record store loop logs its
status at info level — also on failure — and never emits a warning;
three periods of an always-failing store produce three info events and
no warning. -/
theorem periodic_store_overlay_node_logs_info_not_warn :
    periodic_store_overlay_node (fun _ : Nat => (Except.error () : Except Unit Unit)) 3
      = [PEvent.action, PEvent.logInfo, PEvent.sleep 500,
         PEvent.action, PEvent.logInfo, PEvent.sleep 500,
         PEvent.action, PEvent.logInfo, PEvent.sleep 500]
    ∧ PEvent.logWarn ∉ periodic_store_overlay_node
        (fun _ : Nat => (Except.error () : Except Unit Unit)) 3 := by
  constructor
  · rfl
  · decide

theorem periodic_ip_action_count {E : Type} (act : Nat → Except E Unit) :
    ∀ n, pCount PEvent.action (periodic_store_ip_addr act n) = n := by
  intro n
  induction n with
  | zero => rfl
  | succ n ih =>
    cases hact : act n with
    | error e => simp [periodic_store_ip_addr, hact, pCount_append, ih, pCount]
    | ok u => simp [periodic_store_ip_addr, hact, pCount_append, ih, pCount]

theorem periodic_overlay_action_count {E R : Type} (act : Nat → Except E R) :
    ∀ n, pCount PEvent.action (periodic_store_overlay_node act n) = n := by
  intro n
  induction n with
  | zero => rfl
  | succ n ih => simp [periodic_store_overlay_node, pCount_append, ih, pCount]

theorem periodic_ip_sleep500 {E : Type} (act : Nat → Except E Unit) :
    ∀ n s, PEvent.sleep s ∈ periodic_store_ip_addr act n → s = 500 := by
  intro n
  induction n with
  | zero => intro s h; simp [periodic_store_ip_addr] at h
  | succ n ih =>
    intro s h
    simp only [periodic_store_ip_addr, List.mem_append] at h
    rcases h with h | h
    · exact ih s h
    · cases hact : act n with
      | error e => rw [hact] at h; simp at h; exact h
      | ok u => rw [hact] at h; simp at h; exact h

theorem periodic_overlay_sleep500 {E R : Type} (act : Nat → Except E R) :
    ∀ n s, PEvent.sleep s ∈ periodic_store_overlay_node act n → s = 500 := by
  intro n
  induction n with
  | zero => intro s h; simp [periodic_store_overlay_node] at h
  | succ n ih =>
    intro s h
    simp only [periodic_store_overlay_node, List.mem_append] at h
    rcases h with h | h
    · exact ih s h
    · simp at h; exact h

theorem periodic_ip_warns_on_failure {E : Type} (act : Nat → Except E Unit)
    (hfail : ∀ i, ∃ e, act i = .error e) :
    ∀ n, pCount PEvent.logWarn (periodic_store_ip_addr act n) = n := by
  intro n
  induction n with
  | zero => rfl
  | succ n ih =>
    obtain ⟨e, he⟩ := hfail n
    simp [periodic_store_ip_addr, he, pCount_append, ih, pCount]

theorem periodic_overlay_info_count {E R : Type} (act : Nat → Except E R) :
    ∀ n, pCount PEvent.logInfo (periodic_store_overlay_node act n) = n := by
  intro n
  induction n with
  | zero => rfl
  | succ n ih => simp [periodic_store_overlay_node, pCount_append, ih, pCount]

theorem periodic_overlay_no_warn {E R : Type} (act : Nat → Except E R) :
    ∀ n, PEvent.logWarn ∉ periodic_store_overlay_node act n := by
  intro n
  induction n with
  | zero => simp [periodic_store_overlay_node]
  | succ n ih =>
    intro h
    simp only [periodic_store_overlay_node, List.mem_append] at h
    rcases h with h | h
    · exact ih h
    · simp at h

/-- Claim C7 (amended): both self-announcement loops iterate forever
with one network action and a fixed 500-second sleep per iteration and
keep running with no crash under sustained failure; the ip-address
loop logs each failure as a warning, while the overlay-record loop
logs the store status at info level on every iteration — success or
failure — and never emits a warning. -/
theorem periodic_store_loops_forever {E R : Type}
    (act : Nat → Except E Unit) (act2 : Nat → Except E R) (n : Nat) :
    (pCount PEvent.action (periodic_store_ip_addr act n) = n)
    ∧ (pCount PEvent.action (periodic_store_overlay_node act2 n) = n)
    ∧ (∃ suffix, periodic_store_ip_addr act (n + 1)
        = periodic_store_ip_addr act n ++ suffix ∧ PEvent.action ∈ suffix)
    ∧ (∃ suffix, periodic_store_overlay_node act2 (n + 1)
        = periodic_store_overlay_node act2 n ++ suffix ∧ PEvent.action ∈ suffix)
    ∧ (∀ s, PEvent.sleep s ∈ periodic_store_ip_addr act n → s = 500)
    ∧ (∀ s, PEvent.sleep s ∈ periodic_store_overlay_node act2 n → s = 500)
    ∧ ((∀ i, ∃ e, act i = .error e) →
        pCount PEvent.logWarn (periodic_store_ip_addr act n) = n)
    ∧ (pCount PEvent.logInfo (periodic_store_overlay_node act2 n) = n)
    ∧ PEvent.logWarn ∉ periodic_store_overlay_node act2 n := by
  refine ⟨periodic_ip_action_count act n, periodic_overlay_action_count act2 n,
    ?_, ?_, periodic_ip_sleep500 act n, periodic_overlay_sleep500 act2 n,
    fun hfail => periodic_ip_warns_on_failure act hfail n,
    periodic_overlay_info_count act2 n, periodic_overlay_no_warn act2 n⟩
  · cases hact : act n with
    | error e =>
      exact ⟨[PEvent.action, PEvent.logWarn, PEvent.sleep 500],
        by simp [periodic_store_ip_addr, hact], by simp⟩
    | ok u =>
      exact ⟨[PEvent.action, PEvent.sleep 500],
        by simp [periodic_store_ip_addr, hact], by simp⟩
  · exact ⟨[PEvent.action, PEvent.logInfo, PEvent.sleep 500],
      by simp [periodic_store_overlay_node], by simp⟩

/-- Witness for C7 at a concretely failing DHT mock, three periods. -/
theorem periodic_store_loops_forever_witness :
    pCount PEvent.action (periodic_store_ip_addr
      (fun _ : Nat => (Except.error () : Except Unit Unit)) 3) = 3
    ∧ pCount PEvent.logWarn (periodic_store_ip_addr
      (fun _ : Nat => (Except.error () : Except Unit Unit)) 3) = 3
    ∧ pCount PEvent.logInfo (periodic_store_overlay_node
      (fun _ : Nat => (Except.error () : Except Unit Unit)) 3) = 3 := by
  have h := periodic_store_loops_forever
    (fun _ : Nat => (Except.error () : Except Unit Unit))
    (fun _ : Nat => (Except.error () : Except Unit Unit)) 3
  exact ⟨h.1, h.2.2.2.2.2.2.1 (fun _ => ⟨(), rfl⟩), h.2.2.2.2.2.2.2.1⟩

/-! ## Theorems: the DHT crawl loop -/

theorem queriesOf_append {P : Type} :
    ∀ l1 l2 : List (CEvent P), queriesOf (l1 ++ l2) = queriesOf l1 ++ queriesOf l2 := by
  intro l1 l2
  induction l1 with
  | nil => simp [queriesOf]
  | cons e rest ih =>
    cases e with
    | query p => simp [queriesOf, ih]
    | warnFail p => simp [queriesOf, ih]
    | sleep s => simp [queriesOf, ih]

/-- One find-nodes query per enumerated peer, in enumeration order. -/
theorem queriesOf_crawlRound {P E : Type} (q : P → Except E Unit) :
    ∀ known : List P, queriesOf (crawlRound q known) = known := by
  intro known
  induction known with
  | nil => rfl
  | cons p rest ih =>
    cases hq : q p with
    | error e => simp [crawlRound, hq, queriesOf_append, queriesOf, ih]
    | ok u => simp [crawlRound, hq, queriesOf_append, queriesOf, ih]

theorem crawlRound_no_sleep {P E : Type} (q : P → Except E Unit) :
    ∀ (known : List P) (s : Nat), CEvent.sleep s ∉ crawlRound q known := by
  intro known
  induction known with
  | nil => intro s h; simp [crawlRound] at h
  | cons p rest ih =>
    intro s h
    cases hq : q p with
    | error e =>
      rw [crawlRound, hq] at h
      simp at h
      exact ih s h
    | ok u =>
      rw [crawlRound, hq] at h
      simp at h
      exact ih s h

theorem find_dht_nodes_sleep60 {P E : Type} (enum : Nat → List P) (q : P → Except E Unit) :
    ∀ n s, CEvent.sleep s ∈ find_dht_nodes enum q n → s = 60 := by
  intro n
  induction n with
  | zero => intro s h; simp [find_dht_nodes] at h
  | succ n ih =>
    intro s h
    simp only [find_dht_nodes, List.append_assoc, List.mem_append] at h
    rcases h with h | h | h
    · exact ih s h
    · exact absurd h (crawlRound_no_sleep q (enum n) s)
    · simp at h; exact h

theorem crawlRound_warns {P E : Type} (q : P → Except E Unit) :
    ∀ (known : List P) (p : P) (e : E), p ∈ known → q p = .error e →
      CEvent.warnFail p ∈ crawlRound q known := by
  intro known
  induction known with
  | nil => intro p e h _; simp at h
  | cons p0 rest ih =>
    intro p e hmem he
    rcases List.mem_cons.mp hmem with h | h
    · subst h
      rw [crawlRound, he]
      simp
    · have := ih p e h he
      cases hq : q p0 with
      | error e0 => rw [crawlRound, hq]; simp [this]
      | ok u => rw [crawlRound, hq]; simp [this]

/-- Claim C8: each crawl round enumerates the DHT's known peers from a
fresh cursor and issues exactly one find-nodes query per enumerated
peer, warning on each failed query; when the enumeration is exhausted
the loop sleeps the fixed 60 seconds and restarts the enumeration from
the beginning, forever. -/
theorem find_dht_nodes_crawl {P E : Type} (enum : Nat → List P)
    (q : P → Except E Unit) (n : Nat) :
    (find_dht_nodes enum q (n + 1)
      = find_dht_nodes enum q n ++ crawlRound q (enum n) ++ [CEvent.sleep 60])
    ∧ (∀ known : List P, queriesOf (crawlRound q known) = known)
    ∧ (∀ s : Nat, CEvent.sleep s ∈ find_dht_nodes enum q n → s = 60)
    ∧ (∀ (p : P) (e : E) (known : List P), p ∈ known → q p = .error e →
        CEvent.warnFail p ∈ crawlRound q known) :=
  ⟨rfl, queriesOf_crawlRound q, find_dht_nodes_sleep60 enum q n,
    fun p e known hmem he => crawlRound_warns q known p e hmem he⟩

/-- Witness for C8: the enumeration `[1, 2, 3]` gives exactly 3
queries before the sleep; a failing query to peer 1 is warned. -/
theorem find_dht_nodes_crawl_witness :
    queriesOf (crawlRound (fun _ : Nat => (Except.ok () : Except Unit Unit)) [1, 2, 3])
      = [1, 2, 3]
    ∧ (queriesOf (crawlRound (fun _ : Nat => (Except.ok () : Except Unit Unit))
        [1, 2, 3])).length = 3
    ∧ CEvent.warnFail 1 ∈ crawlRound
        (fun _ : Nat => (Except.error () : Except Unit Unit)) [1, 2, 3] := by
  have h := find_dht_nodes_crawl (fun _ : Nat => ([1, 2, 3] : List Nat))
    (fun _ : Nat => (Except.ok () : Except Unit Unit)) 0
  have h2 := find_dht_nodes_crawl (fun _ : Nat => ([1, 2, 3] : List Nat))
    (fun _ : Nat => (Except.error () : Except Unit Unit)) 0
  refine ⟨h.2.1 [1, 2, 3], ?_, h2.2.2.2 1 () [1, 2, 3] (by simp) rfl⟩
  rw [h.2.1 [1, 2, 3]]
  rfl

/-! ## Theorems: the persisted-peer read path -/

/-- Counterexample for claim C9: malformed persisted peer data is not
swallowed — a failing `serde_json::from_slice` propagates through `?`
as an error to the caller instead of yielding `Ok(None)` or an empty
result. -/
theorem get_peers_from_storage_parse_error_surfaces :
    get_peers_from_storage (Except.ok ())
      (fun _ : Unit => (Except.error 42 : Except Nat (List String)))
      (fun _ => (Except.ok 0 : Except Nat Nat))
      = Except.error 42
    ∧ get_peers_from_storage (Except.ok ())
      (fun _ : Unit => (Except.error 42 : Except Nat (List String)))
      (fun _ => (Except.ok 0 : Except Nat Nat))
      ≠ Except.ok none := by
  constructor
  · rfl
  · intro h
    simp [get_peers_from_storage] at h

/-- Claim C9 (amended): a failed load from the key-value store is
swallowed into `Ok(None)`; malformed persisted data, however, surfaces
as an error — a parse failure of the loaded bytes and a decode failure
of an individual entry both propagate to the caller via `?`, and only
a fully decoded list is returned. -/
theorem get_peers_from_storage_read_path {B Cfg E : Type}
    (load : Except E B) (parseJson : B → Except E (List String))
    (fromJson : String → Except E Cfg) :
    (∀ e, load = .error e →
      get_peers_from_storage load parseJson fromJson = .ok none)
    ∧ (∀ raw e, load = .ok raw → parseJson raw = .error e →
      get_peers_from_storage load parseJson fromJson = .error e)
    ∧ (∀ raw items e, load = .ok raw → parseJson raw = .ok items →
      mapFromJson fromJson items = .error e →
      get_peers_from_storage load parseJson fromJson = .error e)
    ∧ (∀ raw items cfgs, load = .ok raw → parseJson raw = .ok items →
      mapFromJson fromJson items = .ok cfgs →
      get_peers_from_storage load parseJson fromJson = .ok (some cfgs)) := by
  refine ⟨?_, ?_, ?_, ?_⟩
  · intro e he
    subst he
    rfl
  · intro raw e h1 h2
    subst h1
    simp [get_peers_from_storage, h2]
  · intro raw items e h1 h2 h3
    subst h1
    simp [get_peers_from_storage, h2, h3]
  · intro raw items cfgs h1 h2 h3
    subst h1
    simp [get_peers_from_storage, h2, h3]

/-- Witness for C9: a failing load yields `Ok(None)`; a good load with
a good parse yields the decoded list. -/
theorem get_peers_from_storage_read_path_witness :
    get_peers_from_storage (Except.error 7)
      (fun _ : Unit => (Except.ok [] : Except Nat (List String)))
      (fun _ => (Except.ok 0 : Except Nat Nat)) = Except.ok none
    ∧ get_peers_from_storage (Except.ok ())
      (fun _ : Unit => (Except.ok [] : Except Nat (List String)))
      (fun _ => (Except.ok 0 : Except Nat Nat)) = Except.ok (some []) := by
  constructor
  · exact (get_peers_from_storage_read_path (Except.error 7)
      (fun _ : Unit => (Except.ok [] : Except Nat (List String)))
      (fun _ => (Except.ok 0 : Except Nat Nat))).1 7 rfl
  · exact (get_peers_from_storage_read_path (Except.ok ())
      (fun _ : Unit => (Except.ok [] : Except Nat (List String)))
      (fun _ => (Except.ok 0 : Except Nat Nat))).2.2.2 () [] [] rfl rfl rfl

/-! ## Theorems: the bootstrap worker -/

/-- Counterexample for claim C5: a transient network error in the
worker's peer-discovery round (`update_overlay_peers(...).await?` at
line 386) is not swallowed — the worker fails with it, and through
`do_or_wait(...).await?` the resolve caller receives the error. -/
theorem get_overlay_worker_discovery_error_to_caller :
    (get_overlay_worker
      { addShard := Except.ok (), getSignedNode := Except.ok (),
        findNodes := (Except.error 13 : Except Nat (List Unit)),
        addPublicPeer := fun _ => Except.ok (none : Option Nat),
        neighboursNew := Except.ok () } 5 (fun c => c)).2 = Except.error 13
    ∧ get_overlay (fun _ : Nat => (none : Option Nat))
        (fun _ => (Except.error 13 : Except Nat (Option Nat))) 1 0
        = (some (Except.error 13), 1) :=
  ⟨rfl, rfl⟩

/-- Claim C5 (amended): during the Bootstrap Workflow a peer-discovery
round that finds zero peers is logged as a warning and does not fail
the bootstrap; a transient network error in that discovery round,
however, fails the worker and is propagated through the resolve loop
to the caller.  Discovery errors are logged as warnings and swallowed
only inside the peer-refresh loop, which keeps running. -/
theorem get_overlay_worker_discovery_handling {P Q E : Type}
    (env : WorkerEnv P Q E) (cand : Nat) (tryAdd : Nat → Nat) :
    (env.addShard = .ok () → env.getSignedNode = .ok () →
      env.findNodes = .ok [] → env.neighboursNew = .ok () →
      (get_overlay_worker env cand tryAdd).2 = .ok (tryAdd cand)
      ∧ WEvent.warnNoNodes ∈ (get_overlay_worker env cand tryAdd).1)
    ∧ (∀ e, env.addShard = .ok () → env.getSignedNode = .ok () →
      env.findNodes = .error e →
      (get_overlay_worker env cand tryAdd).2 = .error e)
    ∧ (∀ (e : E) (cacheAt : Nat → Option Nat)
        (doOrWaitAt : Nat → Except E (Option Nat)) (t fuel : Nat),
      cacheAt t = none → doOrWaitAt t = .error e →
      get_overlay cacheAt doOrWaitAt (fuel + 1) t = (some (Except.error e), 1))
    ∧ (∀ (rnd : Option Nat → Except E (List P) × Option Nat)
        (quota fuel count : Nat) (cur : Option Nat) (e : E),
      (rnd cur).1 = .error e →
      REvent.warnFail ∈ (start_update_peers rnd quota (fuel + 1) cur count).1) := by
  refine ⟨?_, ?_, ?_, ?_⟩
  · intro h1 h2 h3 h4
    simp [get_overlay_worker, h1, h2, h3, h4, update_overlay_peers, registerPeers]
  · intro e h1 h2 h3
    simp [get_overlay_worker, h1, h2, h3, update_overlay_peers]
  · intro e cacheAt doOrWaitAt t fuel h1 h2
    simp [get_overlay, h1, h2]
  · intro rnd quota fuel count cur e he
    exact start_update_peers_warn_mem rnd quota fuel count cur e he

/-- Witness for C5 at a concrete environment that finds zero peers. -/
theorem get_overlay_worker_discovery_handling_witness :
    (get_overlay_worker
      { addShard := Except.ok (), getSignedNode := Except.ok (),
        findNodes := (Except.ok [] : Except Nat (List Unit)),
        addPublicPeer := fun _ => Except.ok (none : Option Nat),
        neighboursNew := Except.ok () } 5 (fun c => c)).2 = Except.ok 5
    ∧ WEvent.warnNoNodes ∈ (get_overlay_worker
      { addShard := Except.ok (), getSignedNode := Except.ok (),
        findNodes := (Except.ok [] : Except Nat (List Unit)),
        addPublicPeer := fun _ => Except.ok (none : Option Nat),
        neighboursNew := Except.ok () } 5 (fun c => c)).1 := by
  have h := (get_overlay_worker_discovery_handling
    { addShard := Except.ok (), getSignedNode := Except.ok (),
      findNodes := (Except.ok [] : Except Nat (List Unit)),
      addPublicPeer := fun _ => Except.ok (none : Option Nat),
      neighboursNew := Except.ok () } 5 (fun c => c)).1 rfl rfl rfl rfl
  exact h

/-- Claim C10: every worker execution that reaches the publish attempt
has already spawned the overlay-record announcement loop, the three
neighbour-health loops and the peer-refresh loop, the latter bound to
the same freshly built candidate it publishes; the spawn trace does
not depend on the publish outcome (a losing candidate changes
nothing), and no cancellation event ever appears. -/
theorem get_overlay_worker_spawns_before_publish {P Q E : Type}
    (env : WorkerEnv P Q E) (cand : Nat) (tryAdd : Nat → Nat) :
    ((∃ h, (get_overlay_worker env cand tryAdd).2 = .ok h) →
      ∃ pre, (get_overlay_worker env cand tryAdd).1 = pre ++ [WEvent.publish cand]
        ∧ WEvent.spawnStoreOverlayNode ∈ pre
        ∧ WEvent.spawnPing ∈ pre ∧ WEvent.spawnReload ∈ pre
        ∧ WEvent.spawnRndPeers ∈ pre ∧ WEvent.spawnUpdatePeers cand ∈ pre)
    ∧ (∀ tryAdd2 : Nat → Nat,
        (get_overlay_worker env cand tryAdd).1 = (get_overlay_worker env cand tryAdd2).1)
    ∧ WEvent.cancel ∉ (get_overlay_worker env cand tryAdd).1 := by
  cases h1 : env.addShard with
  | error e =>
    refine ⟨?_, ?_, ?_⟩
    · rintro ⟨h, hh⟩
      simp [get_overlay_worker, h1] at hh
    · intro tryAdd2; simp [get_overlay_worker, h1]
    · simp [get_overlay_worker, h1]
  | ok u1 =>
    cases h2 : env.getSignedNode with
    | error e =>
      refine ⟨?_, ?_, ?_⟩
      · rintro ⟨h, hh⟩
        simp [get_overlay_worker, h1, h2] at hh
      · intro tryAdd2; simp [get_overlay_worker, h1, h2]
      · simp [get_overlay_worker, h1, h2]
    | ok u2 =>
      cases h3 : update_overlay_peers env.findNodes env.addPublicPeer with
      | error e =>
        refine ⟨?_, ?_, ?_⟩
        · rintro ⟨h, hh⟩
          simp [get_overlay_worker, h1, h2, h3] at hh
        · intro tryAdd2; simp [get_overlay_worker, h1, h2, h3]
        · simp [get_overlay_worker, h1, h2, h3]
      | ok peers =>
        cases h4 : env.neighboursNew with
        | error e =>
          refine ⟨?_, ?_, ?_⟩
          · rintro ⟨h, hh⟩
            simp [get_overlay_worker, h1, h2, h3, h4] at hh
          · intro tryAdd2; simp [get_overlay_worker, h1, h2, h3, h4]
          · by_cases hemp : peers.isEmpty
            · simp [get_overlay_worker, h1, h2, h3, h4, hemp]
            · simp [get_overlay_worker, h1, h2, h3, h4, hemp]
        | ok u4 =>
          refine ⟨?_, ?_, ?_⟩
          · intro _
            refine ⟨WEvent.spawnStoreOverlayNode ::
              (if peers.isEmpty then [WEvent.warnNoNodes] else []) ++
              [WEvent.spawnPing, WEvent.spawnReload, WEvent.spawnRndPeers,
                WEvent.spawnUpdatePeers cand], ?_, ?_, ?_, ?_, ?_, ?_⟩
            · by_cases hemp : peers.isEmpty
              · simp [get_overlay_worker, h1, h2, h3, h4, hemp]
              · simp [get_overlay_worker, h1, h2, h3, h4, hemp]
            · simp
            · by_cases hemp : peers.isEmpty
              · simp [hemp]
              · simp [hemp]
            · by_cases hemp : peers.isEmpty
              · simp [hemp]
              · simp [hemp]
            · by_cases hemp : peers.isEmpty
              · simp [hemp]
              · simp [hemp]
            · by_cases hemp : peers.isEmpty
              · simp [hemp]
              · simp [hemp]
          · intro tryAdd2
            simp [get_overlay_worker, h1, h2, h3, h4]
          · by_cases hemp : peers.isEmpty
            · simp [get_overlay_worker, h1, h2, h3, h4, hemp]
            · simp [get_overlay_worker, h1, h2, h3, h4, hemp]

/-- Witness for C10: a successful concrete worker run publishes last,
after all its spawns. -/
theorem get_overlay_worker_spawns_before_publish_witness :
    ∃ pre, (get_overlay_worker
      { addShard := Except.ok (), getSignedNode := Except.ok (),
        findNodes := (Except.ok [] : Except Nat (List Unit)),
        addPublicPeer := fun _ => Except.ok (none : Option Nat),
        neighboursNew := Except.ok () } 5 (fun c => c)).1
        = pre ++ [WEvent.publish 5]
      ∧ WEvent.spawnStoreOverlayNode ∈ pre
      ∧ WEvent.spawnPing ∈ pre ∧ WEvent.spawnReload ∈ pre
      ∧ WEvent.spawnRndPeers ∈ pre ∧ WEvent.spawnUpdatePeers 5 ∈ pre :=
  (get_overlay_worker_spawns_before_publish
    { addShard := Except.ok (), getSignedNode := Except.ok (),
      findNodes := (Except.ok [] : Except Nat (List Unit)),
      addPublicPeer := fun _ => Except.ok (none : Option Nat),
      neighboursNew := Except.ok () } 5 (fun c => c)).1 ⟨5, rfl⟩

/-! ## Theorems: concurrent resolution -/

/-- Counterexample for claim C1: with two concurrent resolves of the
same identifier, a second Bootstrap Workflow can execute — caller 1
misses the cache before caller 0 publishes, but reaches the
coordinator only after caller 0's work completed, so its own workflow
runs, builds candidate 1, loses the publish race and is discarded; the
claim's "exactly one Bootstrap Workflow executes" fails even though
both callers still return the identical handle 0. -/
theorem get_overlay_two_workflows :
    runTrace (initSys 2)
      [Label.miss 0, Label.miss 1, Label.startWork 0, Label.build 0, Label.publishWin 0,
       Label.startWork 1, Label.build 1, Label.publishLose 1, Label.hit 1]
      = some (Sys.mk (some 0) 2 [CallerPc.done 0, CallerPc.done 0] [1])
    ∧ allDone (Sys.mk (some 0) 2 [CallerPc.done 0, CallerPc.done 0] [1]) = true
    ∧ startWorkCount
      [Label.miss 0, Label.miss 1, Label.startWork 0, Label.build 0, Label.publishWin 0,
       Label.startWork 1, Label.build 1, Label.publishLose 1, Label.hit 1] = 2 := by
  refine ⟨by decide, by decide, by decide⟩

theorem lt_length_of_getElem? {α : Type} {l : List α} {i : Nat} {a : α}
    (h : l[i]? = some a) : i < l.length := by
  by_contra hge
  rw [List.getElem?_eq_none (Nat.le_of_not_lt hge)] at h
  exact absurd h (by simp)

theorem getElem?_set_cases {α : Type} (l : List α) (i j : Nat) (a b : α)
    (h : (l.set i a)[j]? = some b) : (j = i ∧ b = a) ∨ (j ≠ i ∧ l[j]? = some b) := by
  by_cases hji : j = i
  · subst hji
    by_cases hlt : j < l.length
    · rw [List.getElem?_set_eq_of_lt a hlt] at h
      exact Or.inl ⟨rfl, (Option.some_inj.mp h).symm⟩
    · rw [List.getElem?_eq_none (by simpa [List.length_set] using Nat.le_of_not_lt hlt)] at h
      exact absurd h (by simp)
  · refine Or.inr ⟨hji, ?_⟩
    rw [← List.getElem?_set_ne (l := l) (a := a) (Ne.symm hji)]
    exact h

theorem getElem?_map_some {α β : Type} (f : α → β) (l : List α) (j : Nat) (b : β)
    (h : (l.map f)[j]? = some b) : ∃ a, l[j]? = some a ∧ f a = b := by
  rw [List.getElem?_map] at h
  cases ha : l[j]? with
  | none => rw [ha] at h; exact absurd h (by simp)
  | some a =>
    rw [ha] at h
    simp only [Option.map_some'] at h
    exact ⟨a, rfl, Option.some_inj.mp h⟩

theorem deliver_eq_working {r : Nat} {pc : CallerPc} {c : Option Nat}
    (h : deliver r pc = CallerPc.working c) : pc = CallerPc.working c := by
  cases pc with
  | start => simp [deliver] at h
  | missed => simp [deliver] at h
  | working a => simpa [deliver] using h
  | waiting => simp [deliver] at h
  | done w => simp [deliver] at h

theorem deliver_eq_done {r : Nat} {pc : CallerPc} {v : Nat}
    (h : deliver r pc = CallerPc.done v) :
    pc = CallerPc.done v ∨ (pc = CallerPc.waiting ∧ v = r) := by
  cases pc with
  | start => simp [deliver] at h
  | missed => simp [deliver] at h
  | working c => simp [deliver] at h
  | waiting => simp [deliver] at h; exact Or.inr ⟨rfl, h.symm⟩
  | done w => simp [deliver] at h; exact Or.inl (by rw [h])

theorem noWorker_spec {s : Sys} (h : noWorker s = true) (j : Nat) (cj : Option Nat) :
    s.callers[j]? ≠ some (CallerPc.working cj) := by
  intro hj
  have hmem := List.getElem?_mem hj
  have := List.all_eq_true.mp h _ hmem
  simp [isWorking] at this

/-- Every interleaving step preserves the invariant. -/
theorem inv_step (s s' : Sys) (l : Label) (h : applyLabel s l = some s')
    (hs : Inv s) : Inv s' := by
  obtain ⟨cache, nextHandle, callers, lost⟩ := s
  cases l with
  | hit i =>
    cases hpc : callers[i]? with
    | none => simp [applyLabel, hpc] at h
    | some pc =>
      cases pc with
      | start =>
        cases cache with
        | none => simp [applyLabel, hpc] at h
        | some v =>
          simp only [applyLabel, hpc, Option.some_inj] at h
          subst h
          refine ⟨?_, ?_, ?_, ?_, ?_, ?_, ?_, ?_⟩
          · intro a b ca cb ha hb
            rcases getElem?_set_cases _ _ _ _ _ ha with ⟨rfl, hEq⟩ | ⟨hnea, ha'⟩
            · exact absurd hEq (by simp)
            · rcases getElem?_set_cases _ _ _ _ _ hb with ⟨rfl, hEq⟩ | ⟨hneb, hb'⟩
              · exact absurd hEq (by simp)
              · exact hs.oneWorker a b ca cb ha' hb'
          · intro a w ha
            rcases getElem?_set_cases _ _ _ _ _ ha with ⟨rfl, hEq⟩ | ⟨hnea, ha'⟩
            · simp only [CallerPc.done.injEq] at hEq
              rw [hEq]
            · exact hs.doneCache a w ha'
          · exact hs.cacheFresh
          · intro a c ha
            rcases getElem?_set_cases _ _ _ _ _ ha with ⟨rfl, hEq⟩ | ⟨hnea, ha'⟩
            · exact absurd hEq (by simp)
            · exact hs.workFresh a c ha'
          · intro a c ha
            rcases getElem?_set_cases _ _ _ _ _ ha with ⟨rfl, hEq⟩ | ⟨hnea, ha'⟩
            · exact absurd hEq (by simp)
            · exact hs.workNotCache a c ha'
          · intro a c ha
            rcases getElem?_set_cases _ _ _ _ _ ha with ⟨rfl, hEq⟩ | ⟨hnea, ha'⟩
            · exact absurd hEq (by simp)
            · exact hs.workNotLost a c ha'
          · exact hs.lostFresh
          · exact hs.lostNotCache
      | missed => simp [applyLabel, hpc] at h
      | working c => simp [applyLabel, hpc] at h
      | waiting => simp [applyLabel, hpc] at h
      | done v => simp [applyLabel, hpc] at h
  | miss i =>
    cases hpc : callers[i]? with
    | none => simp [applyLabel, hpc] at h
    | some pc =>
      cases pc with
      | start =>
        cases cache with
        | some v => simp [applyLabel, hpc] at h
        | none =>
          simp only [applyLabel, hpc, Option.some_inj] at h
          subst h
          refine ⟨?_, ?_, ?_, ?_, ?_, ?_, ?_, ?_⟩
          · intro a b ca cb ha hb
            rcases getElem?_set_cases _ _ _ _ _ ha with ⟨rfl, hEq⟩ | ⟨hnea, ha'⟩
            · exact absurd hEq (by simp)
            · rcases getElem?_set_cases _ _ _ _ _ hb with ⟨rfl, hEq⟩ | ⟨hneb, hb'⟩
              · exact absurd hEq (by simp)
              · exact hs.oneWorker a b ca cb ha' hb'
          · intro a w ha
            rcases getElem?_set_cases _ _ _ _ _ ha with ⟨rfl, hEq⟩ | ⟨hnea, ha'⟩
            · exact absurd hEq (by simp)
            · exact absurd (hs.doneCache a w ha') (by simp)
          · intro w hw
            exact absurd hw (by simp)
          · intro a c ha
            rcases getElem?_set_cases _ _ _ _ _ ha with ⟨rfl, hEq⟩ | ⟨hnea, ha'⟩
            · exact absurd hEq (by simp)
            · exact hs.workFresh a c ha'
          · intro a c ha
            simp
          · intro a c ha
            rcases getElem?_set_cases _ _ _ _ _ ha with ⟨rfl, hEq⟩ | ⟨hnea, ha'⟩
            · exact absurd hEq (by simp)
            · exact hs.workNotLost a c ha'
          · exact hs.lostFresh
          · intro c hcl
            simp
      | missed => simp [applyLabel, hpc] at h
      | working c => simp [applyLabel, hpc] at h
      | waiting => simp [applyLabel, hpc] at h
      | done v => simp [applyLabel, hpc] at h
  | startWork i =>
    cases hpc : callers[i]? with
    | none => simp [applyLabel, hpc] at h
    | some pc =>
      cases pc with
      | missed =>
        cases hnw : noWorker ⟨cache, nextHandle, callers, lost⟩ with
        | false => simp [applyLabel, hpc, hnw] at h
        | true =>
          simp only [applyLabel, hpc, hnw, if_true, Option.some_inj] at h
          subst h
          refine ⟨?_, ?_, ?_, ?_, ?_, ?_, ?_, ?_⟩
          · intro a b ca cb ha hb
            rcases getElem?_set_cases _ _ _ _ _ ha with ⟨rfl, hEq⟩ | ⟨hnea, ha'⟩
            · rcases getElem?_set_cases _ _ _ _ _ hb with ⟨rfl, hEq2⟩ | ⟨hneb, hb'⟩
              · rfl
              · exact absurd hb' (noWorker_spec hnw b cb)
            · exact absurd ha' (noWorker_spec hnw a ca)
          · intro a w ha
            rcases getElem?_set_cases _ _ _ _ _ ha with ⟨rfl, hEq⟩ | ⟨hnea, ha'⟩
            · exact absurd hEq (by simp)
            · exact hs.doneCache a w ha'
          · exact hs.cacheFresh
          · intro a c ha
            rcases getElem?_set_cases _ _ _ _ _ ha with ⟨rfl, hEq⟩ | ⟨hnea, ha'⟩
            · exact absurd hEq (by simp)
            · exact hs.workFresh a c ha'
          · intro a c ha
            rcases getElem?_set_cases _ _ _ _ _ ha with ⟨rfl, hEq⟩ | ⟨hnea, ha'⟩
            · exact absurd hEq (by simp)
            · exact hs.workNotCache a c ha'
          · intro a c ha
            rcases getElem?_set_cases _ _ _ _ _ ha with ⟨rfl, hEq⟩ | ⟨hnea, ha'⟩
            · exact absurd hEq (by simp)
            · exact hs.workNotLost a c ha'
          · exact hs.lostFresh
          · exact hs.lostNotCache
      | start => simp [applyLabel, hpc] at h
      | working c => simp [applyLabel, hpc] at h
      | waiting => simp [applyLabel, hpc] at h
      | done v => simp [applyLabel, hpc] at h
  | join i =>
    cases hpc : callers[i]? with
    | none => simp [applyLabel, hpc] at h
    | some pc =>
      cases pc with
      | missed =>
        cases hnw : noWorker ⟨cache, nextHandle, callers, lost⟩ with
        | true => simp [applyLabel, hpc, hnw] at h
        | false =>
          simp only [applyLabel, hpc, hnw, Bool.false_eq_true, if_false,
            Option.some_inj] at h
          subst h
          refine ⟨?_, ?_, ?_, ?_, ?_, ?_, ?_, ?_⟩
          · intro a b ca cb ha hb
            rcases getElem?_set_cases _ _ _ _ _ ha with ⟨rfl, hEq⟩ | ⟨hnea, ha'⟩
            · exact absurd hEq (by simp)
            · rcases getElem?_set_cases _ _ _ _ _ hb with ⟨rfl, hEq⟩ | ⟨hneb, hb'⟩
              · exact absurd hEq (by simp)
              · exact hs.oneWorker a b ca cb ha' hb'
          · intro a w ha
            rcases getElem?_set_cases _ _ _ _ _ ha with ⟨rfl, hEq⟩ | ⟨hnea, ha'⟩
            · exact absurd hEq (by simp)
            · exact hs.doneCache a w ha'
          · exact hs.cacheFresh
          · intro a c ha
            rcases getElem?_set_cases _ _ _ _ _ ha with ⟨rfl, hEq⟩ | ⟨hnea, ha'⟩
            · exact absurd hEq (by simp)
            · exact hs.workFresh a c ha'
          · intro a c ha
            rcases getElem?_set_cases _ _ _ _ _ ha with ⟨rfl, hEq⟩ | ⟨hnea, ha'⟩
            · exact absurd hEq (by simp)
            · exact hs.workNotCache a c ha'
          · intro a c ha
            rcases getElem?_set_cases _ _ _ _ _ ha with ⟨rfl, hEq⟩ | ⟨hnea, ha'⟩
            · exact absurd hEq (by simp)
            · exact hs.workNotLost a c ha'
          · exact hs.lostFresh
          · exact hs.lostNotCache
      | start => simp [applyLabel, hpc] at h
      | working c => simp [applyLabel, hpc] at h
      | waiting => simp [applyLabel, hpc] at h
      | done v => simp [applyLabel, hpc] at h
  | build i =>
    cases hpc : callers[i]? with
    | none => simp [applyLabel, hpc] at h
    | some pc =>
      cases pc with
      | working copt =>
        cases copt with
        | some c => simp [applyLabel, hpc] at h
        | none =>
          simp only [applyLabel, hpc, Option.some_inj] at h
          subst h
          refine ⟨?_, ?_, ?_, ?_, ?_, ?_, ?_, ?_⟩
          · intro a b ca cb ha hb
            rcases getElem?_set_cases _ _ _ _ _ ha with ⟨rfl, hEq⟩ | ⟨hnea, ha'⟩
            · rcases getElem?_set_cases _ _ _ _ _ hb with ⟨rfl, hEq2⟩ | ⟨hneb, hb'⟩
              · rfl
              · exact absurd (hs.oneWorker b a cb none hb' hpc) hneb
            · exact absurd (hs.oneWorker a i ca none ha' hpc) hnea
          · intro a w ha
            rcases getElem?_set_cases _ _ _ _ _ ha with ⟨rfl, hEq⟩ | ⟨hnea, ha'⟩
            · exact absurd hEq (by simp)
            · exact hs.doneCache a w ha'
          · intro w hw
            exact Nat.lt_succ_of_lt (hs.cacheFresh w hw)
          · intro a c ha
            rcases getElem?_set_cases _ _ _ _ _ ha with ⟨rfl, hEq⟩ | ⟨hnea, ha'⟩
            · simp only [CallerPc.working.injEq, Option.some_inj] at hEq
              rw [hEq]
              exact Nat.lt_succ_self _
            · exact Nat.lt_succ_of_lt (hs.workFresh a c ha')
          · intro a c ha heq
            rcases getElem?_set_cases _ _ _ _ _ ha with ⟨rfl, hEq⟩ | ⟨hnea, ha'⟩
            · simp only [CallerPc.working.injEq, Option.some_inj] at hEq
              subst hEq
              exact absurd (hs.cacheFresh c heq) (Nat.lt_irrefl c)
            · exact absurd heq (hs.workNotCache a c ha')
          · intro a c ha hmem
            rcases getElem?_set_cases _ _ _ _ _ ha with ⟨rfl, hEq⟩ | ⟨hnea, ha'⟩
            · simp only [CallerPc.working.injEq, Option.some_inj] at hEq
              subst hEq
              exact absurd (hs.lostFresh c hmem) (Nat.lt_irrefl c)
            · exact absurd hmem (hs.workNotLost a c ha')
          · intro c hmem
            exact Nat.lt_succ_of_lt (hs.lostFresh c hmem)
          · exact hs.lostNotCache
      | start => simp [applyLabel, hpc] at h
      | missed => simp [applyLabel, hpc] at h
      | waiting => simp [applyLabel, hpc] at h
      | done v => simp [applyLabel, hpc] at h
  | publishWin i =>
    cases hpc : callers[i]? with
    | none => simp [applyLabel, hpc] at h
    | some pc =>
      cases pc with
      | working copt =>
        cases copt with
        | none => simp [applyLabel, hpc] at h
        | some c =>
          cases cache with
          | some r => simp [applyLabel, hpc] at h
          | none =>
            simp only [applyLabel, hpc, Option.some_inj] at h
            subst h
            have hnowork : ∀ (b : Nat) (cb : Option Nat),
                ((callers.map (deliver c)).set i (CallerPc.done c))[b]?
                  ≠ some (CallerPc.working cb) := by
              intro b cb hb
              rcases getElem?_set_cases _ _ _ _ _ hb with ⟨rfl, hEq⟩ | ⟨hneb, hb'⟩
              · exact absurd hEq (by simp)
              · obtain ⟨x, hx, hdx⟩ := getElem?_map_some _ _ _ _ hb'
                have hxw := deliver_eq_working hdx
                subst hxw
                exact hneb (hs.oneWorker b i cb (some c) hx hpc)
            refine ⟨?_, ?_, ?_, ?_, ?_, ?_, ?_, ?_⟩
            · intro a b ca cb ha hb
              exact absurd ha (hnowork a ca)
            · intro a w ha
              rcases getElem?_set_cases _ _ _ _ _ ha with ⟨rfl, hEq⟩ | ⟨hnea, ha'⟩
              · simp only [CallerPc.done.injEq] at hEq
                rw [hEq]
              · obtain ⟨x, hx, hdx⟩ := getElem?_map_some _ _ _ _ ha'
                rcases deliver_eq_done hdx with hxd | ⟨hxw, hvr⟩
                · subst hxd
                  exact absurd (hs.doneCache a w hx) (by simp)
                · rw [hvr]
            · intro w hw
              obtain rfl := Option.some_inj.mp hw
              exact hs.workFresh i c hpc
            · intro a c2 ha
              exact absurd ha (hnowork a (some c2))
            · intro a c2 ha
              exact absurd ha (hnowork a (some c2))
            · intro a c2 ha
              exact absurd ha (hnowork a (some c2))
            · exact hs.lostFresh
            · intro x hx heq
              obtain rfl := Option.some_inj.mp heq
              exact absurd hx (hs.workNotLost i c hpc)
      | start => simp [applyLabel, hpc] at h
      | missed => simp [applyLabel, hpc] at h
      | waiting => simp [applyLabel, hpc] at h
      | done v => simp [applyLabel, hpc] at h
  | publishLose i =>
    cases hpc : callers[i]? with
    | none => simp [applyLabel, hpc] at h
    | some pc =>
      cases pc with
      | working copt =>
        cases copt with
        | none => simp [applyLabel, hpc] at h
        | some c =>
          cases cache with
          | none => simp [applyLabel, hpc] at h
          | some r =>
            simp only [applyLabel, hpc, Option.some_inj] at h
            subst h
            have hnowork : ∀ (b : Nat) (cb : Option Nat),
                ((callers.map (deliver r)).set i CallerPc.start)[b]?
                  ≠ some (CallerPc.working cb) := by
              intro b cb hb
              rcases getElem?_set_cases _ _ _ _ _ hb with ⟨rfl, hEq⟩ | ⟨hneb, hb'⟩
              · exact absurd hEq (by simp)
              · obtain ⟨x, hx, hdx⟩ := getElem?_map_some _ _ _ _ hb'
                have hxw := deliver_eq_working hdx
                subst hxw
                exact hneb (hs.oneWorker b i cb (some c) hx hpc)
            refine ⟨?_, ?_, ?_, ?_, ?_, ?_, ?_, ?_⟩
            · intro a b ca cb ha hb
              exact absurd ha (hnowork a ca)
            · intro a w ha
              rcases getElem?_set_cases _ _ _ _ _ ha with ⟨rfl, hEq⟩ | ⟨hnea, ha'⟩
              · exact absurd hEq (by simp)
              · obtain ⟨x, hx, hdx⟩ := getElem?_map_some _ _ _ _ ha'
                rcases deliver_eq_done hdx with hxd | ⟨hxw, hvr⟩
                · subst hxd
                  exact hs.doneCache a w hx
                · rw [hvr]
            · exact hs.cacheFresh
            · intro a c2 ha
              exact absurd ha (hnowork a (some c2))
            · intro a c2 ha
              exact absurd ha (hnowork a (some c2))
            · intro a c2 ha
              exact absurd ha (hnowork a (some c2))
            · intro x hx
              rcases List.mem_cons.mp hx with hx | hx
              · rw [hx]
                exact hs.workFresh i c hpc
              · exact hs.lostFresh x hx
            · intro x hx heq
              rcases List.mem_cons.mp hx with hx | hx
              · subst hx
                exact absurd heq (hs.workNotCache i x hpc)
              · exact absurd heq (hs.lostNotCache x hx)
      | start => simp [applyLabel, hpc] at h
      | missed => simp [applyLabel, hpc] at h
      | waiting => simp [applyLabel, hpc] at h
      | done v => simp [applyLabel, hpc] at h

theorem replicate_start_getElem {n i : Nat} {pc : CallerPc}
    (h : (List.replicate n CallerPc.start)[i]? = some pc) : pc = CallerPc.start := by
  rw [List.getElem?_replicate] at h
  by_cases hlt : i < n
  · rw [if_pos hlt] at h
    exact (Option.some_inj.mp h).symm
  · rw [if_neg hlt] at h
    exact absurd h (by simp)

theorem inv_init (n : Nat) : Inv (initSys n) := by
  refine ⟨?_, ?_, ?_, ?_, ?_, ?_, ?_, ?_⟩
  · intro i j ci cj hi _
    exact absurd (replicate_start_getElem hi) (by simp)
  · intro i v hi
    exact absurd (replicate_start_getElem hi) (by simp)
  · intro v hv
    exact absurd hv (by simp [initSys])
  · intro i c hi
    exact absurd (replicate_start_getElem hi) (by simp)
  · intro i c hi
    exact absurd (replicate_start_getElem hi) (by simp)
  · intro i c hi
    exact absurd (replicate_start_getElem hi) (by simp)
  · intro c hc
    exact absurd hc (by simp [initSys])
  · intro c hc
    exact absurd hc (by simp [initSys])

theorem inv_run : ∀ (tr : List Label) (s s' : Sys),
    runTrace s tr = some s' → Inv s → Inv s' := by
  intro tr
  induction tr with
  | nil =>
    intro s s' h hs
    simp only [runTrace, Option.some_inj] at h
    subst h
    exact hs
  | cons l tr ih =>
    intro s s' h hs
    cases hstep : applyLabel s l with
    | none => simp [runTrace, hstep] at h
    | some s1 =>
      simp only [runTrace, hstep] at h
      exact ih s1 s' h (inv_step s s1 l hstep hs)

/-- Steps other than a coordinator selection preserve quiescence. -/
theorem quiet_step (s s' : Sys) (l : Label) (h : applyLabel s l = some s')
    (hl : ∀ i, l ≠ Label.startWork i) (hq : quiet s) : quiet s' := by
  obtain ⟨cache, nextHandle, callers, lost⟩ := s
  obtain ⟨hqc, hqpc⟩ := hq
  have hqc' : cache = none := hqc
  subst hqc'
  cases l with
  | hit i =>
    cases hpc : callers[i]? with
    | none => simp [applyLabel, hpc] at h
    | some pc =>
      cases pc with
      | start => simp [applyLabel, hpc] at h
      | missed => simp [applyLabel, hpc] at h
      | working c => simp [applyLabel, hpc] at h
      | waiting => simp [applyLabel, hpc] at h
      | done v => simp [applyLabel, hpc] at h
  | miss i =>
    cases hpc : callers[i]? with
    | none => simp [applyLabel, hpc] at h
    | some pc =>
      cases pc with
      | start =>
        simp only [applyLabel, hpc, Option.some_inj] at h
        subst h
        refine ⟨rfl, ?_⟩
        intro pc hmem
        rcases List.mem_or_eq_of_mem_set hmem with hmem | rfl
        · exact hqpc pc hmem
        · exact Or.inr rfl
      | missed => simp [applyLabel, hpc] at h
      | working c => simp [applyLabel, hpc] at h
      | waiting => simp [applyLabel, hpc] at h
      | done v => simp [applyLabel, hpc] at h
  | startWork i => exact absurd rfl (hl i)
  | join i =>
    cases hpc : callers[i]? with
    | none => simp [applyLabel, hpc] at h
    | some pc =>
      cases pc with
      | missed =>
        have hnw : noWorker ⟨none, nextHandle, callers, lost⟩ = true := by
          unfold noWorker
          rw [List.all_eq_true]
          intro pc hmem
          rcases hqpc pc hmem with rfl | rfl
          · simp [isWorking]
          · simp [isWorking]
        simp [applyLabel, hpc, hnw] at h
      | start => simp [applyLabel, hpc] at h
      | working c => simp [applyLabel, hpc] at h
      | waiting => simp [applyLabel, hpc] at h
      | done v => simp [applyLabel, hpc] at h
  | build i =>
    cases hpc : callers[i]? with
    | none => simp [applyLabel, hpc] at h
    | some pc =>
      cases pc with
      | working copt =>
        rcases hqpc _ (List.getElem?_mem hpc) with h' | h'
        · exact absurd h' (by simp)
        · exact absurd h' (by simp)
      | start => simp [applyLabel, hpc] at h
      | missed => simp [applyLabel, hpc] at h
      | waiting => simp [applyLabel, hpc] at h
      | done v => simp [applyLabel, hpc] at h
  | publishWin i =>
    cases hpc : callers[i]? with
    | none => simp [applyLabel, hpc] at h
    | some pc =>
      cases pc with
      | working copt =>
        rcases hqpc _ (List.getElem?_mem hpc) with h' | h'
        · exact absurd h' (by simp)
        · exact absurd h' (by simp)
      | start => simp [applyLabel, hpc] at h
      | missed => simp [applyLabel, hpc] at h
      | waiting => simp [applyLabel, hpc] at h
      | done v => simp [applyLabel, hpc] at h
  | publishLose i =>
    cases hpc : callers[i]? with
    | none => simp [applyLabel, hpc] at h
    | some pc =>
      cases pc with
      | working copt =>
        cases copt with
        | none => simp [applyLabel, hpc] at h
        | some c => simp [applyLabel, hpc] at h
      | start => simp [applyLabel, hpc] at h
      | missed => simp [applyLabel, hpc] at h
      | waiting => simp [applyLabel, hpc] at h
      | done v => simp [applyLabel, hpc] at h

theorem quiet_run : ∀ (tr : List Label) (s s' : Sys), startWorkCount tr = 0 →
    runTrace s tr = some s' → quiet s → quiet s' := by
  intro tr
  induction tr with
  | nil =>
    intro s s' _ h hq
    simp only [runTrace, Option.some_inj] at h
    subst h
    exact hq
  | cons l tr ih =>
    intro s s' hcount h hq
    have hl : ∀ i, l ≠ Label.startWork i := by
      intro i hli
      subst hli
      simp [startWorkCount] at hcount
    have hcount' : startWorkCount tr = 0 := by
      cases l with
      | startWork j => exact absurd rfl (hl j)
      | hit j => simpa [startWorkCount] using hcount
      | miss j => simpa [startWorkCount] using hcount
      | join j => simpa [startWorkCount] using hcount
      | build j => simpa [startWorkCount] using hcount
      | publishWin j => simpa [startWorkCount] using hcount
      | publishLose j => simpa [startWorkCount] using hcount
    cases hstep : applyLabel s l with
    | none => simp [runTrace, hstep] at h
    | some s1 =>
      simp only [runTrace, hstep] at h
      exact ih s1 s' hcount' h (quiet_step s s1 l hstep hl hq)

/-- Claim C1 (amended): in every interleaving of N concurrent
`get_overlay` calls for one identifier, at most one Bootstrap Workflow
is in flight at any time and at least one is selected whenever all
callers complete; every completed caller holds exactly the resident
handle, so all returned handles have identical identity; and every
candidate that lost the publish race is never the resident handle in
any reachable state — it is discarded without being observable.  The
claim's literal "exactly one Bootstrap Workflow executes" fails: a
second workflow can run after the first one completed (see the
counterexample), though its candidate is discarded and every caller
still returns the unique surviving handle. -/
theorem get_overlay_single_flight (n : Nat) (tr : List Label) (s : Sys)
    (hrun : runTrace (initSys n) tr = some s) :
    (∀ (i j : Nat) (ci cj : Option Nat),
      s.callers[i]? = some (CallerPc.working ci) →
      s.callers[j]? = some (CallerPc.working cj) → i = j)
    ∧ (∀ (i v : Nat), s.callers[i]? = some (CallerPc.done v) → s.cache = some v)
    ∧ (∀ (i j v w : Nat), s.callers[i]? = some (CallerPc.done v) →
      s.callers[j]? = some (CallerPc.done w) → v = w)
    ∧ (∀ c ∈ s.lost, s.cache ≠ some c)
    ∧ (allDone s = true → s.callers ≠ [] → 1 ≤ startWorkCount tr) := by
  have hinv := inv_run tr (initSys n) s hrun (inv_init n)
  refine ⟨hinv.oneWorker, hinv.doneCache, ?_, hinv.lostNotCache, ?_⟩
  · intro i j v w hi hj
    have h1 := hinv.doneCache i v hi
    have h2 := hinv.doneCache j w hj
    rw [h1] at h2
    exact Option.some_inj.mp h2
  · intro hdone hne
    by_contra hzero
    have h0 : startWorkCount tr = 0 := by omega
    have hq := quiet_run tr (initSys n) s h0 hrun
      ⟨rfl, fun pc hmem => Or.inl (List.eq_of_mem_replicate hmem)⟩
    obtain ⟨x, hx⟩ := List.exists_mem_of_ne_nil _ hne
    have hd := List.all_eq_true.mp hdone x hx
    rcases hq.2 x hx with rfl | rfl
    · simp at hd
    · simp at hd

/-- Witness for C1: a single caller misses, runs the one workflow and
completes with the published handle. -/
theorem get_overlay_single_flight_witness :
    (Sys.mk (some 0) 1 [CallerPc.done 0] []).cache = some 0
    ∧ 1 ≤ startWorkCount
        [Label.miss 0, Label.startWork 0, Label.build 0, Label.publishWin 0] := by
  have h := get_overlay_single_flight 1
    [Label.miss 0, Label.startWork 0, Label.build 0, Label.publishWin 0]
    (Sys.mk (some 0) 1 [CallerPc.done 0] []) (by decide)
  exact ⟨h.2.1 0 0 (by decide), h.2.2.2.2 (by decide) (by decide)⟩

end NodeNet
